import Mathlib

/-!
Verification development for the `Moments` repository (file `scoreSVs.py`).

The Python code is shallowly embedded as follows.

* Python strings are `PyStr := List Char`; Python text files are a single
  `PyStr` (reading a file in text mode translates the CSV writer's CRLF
  line terminator to a single newline character, so the embedding writes
  each row with one trailing newline).
* Python `int` is `ℤ`; Python `float` and `fractions.Fraction` values are
  modelled as exact rationals `ℚ`.  Arithmetic on Python floats is thereby
  modelled exactly; every finite Python float is a decimal fraction, and
  `float(repr(x)) == x` holds in Python, so the serialise-then-parse
  composition modelled here agrees with the Python one on every value a
  score slice can hold (deviations of Python float arithmetic from exact
  rational arithmetic are far below the 2-decimal-place tolerance the
  specification grants to `beat`/`beatStrength`).
* `str(float)` is modelled by `decimalRepr`, which prints the exact decimal
  expansion of a decimal-fraction rational (Python prints the shortest
  round-tripping decimal of the same value; both parse back to the same
  rational, so the round-trip composition is unaffected).  Digit-group
  underscores (PEP 515) and `inf`/`nan` literals, which no slice field can
  contain, are not modelled by the numeric parsers.
* Python exceptions are the `PyError` type; a `ValueError` carries the
  offending token exactly as CPython's message does (and carries no line
  number).  A function that can raise returns `Except PyError α`; the
  resegmentation loop, which can also loop forever, returns `PyResult α`
  with a third `hang` outcome.

Rational arithmetic from Batteries is `@[irreducible]` only to keep `simp`
from unfolding it by accident; the re-attribution below restores the default
reducibility so that concrete witnesses evaluate by `decide` (kernel
reduction is unaffected either way).
-/

set_option allowUnsafeReducibility true in
attribute [semireducible] Rat.add Rat.mul Rat.inv Rat.sub Rat.div Rat.ofScientific Rat.neg

/-- Python strings, embedded as lists of characters. -/
abbrev PyStr := List Char

/-- The tab character (the default field delimiter of `makeSV`). -/
def tabCh : Char := Char.ofNat 9

/-- The newline character (line terminator after text-mode translation). -/
def nlCh : Char := Char.ofNat 10

/-- The carriage-return character (relevant only to CSV quoting). -/
def crCh : Char := Char.ofNat 13

/-- The double-quote character (the CSV `quotechar`). -/
def quoteCh : Char := Char.ofNat 34

/-- The single-quote character used by Python `repr` of strings. -/
def aposCh : Char := Char.ofNat 39

/-- The decimal digit character for a digit value below ten. -/
def digCh : ℕ → Char
  | 0 => '0' | 1 => '1' | 2 => '2' | 3 => '3' | 4 => '4'
  | 5 => '5' | 6 => '6' | 7 => '7' | 8 => '8' | _ => '9'

/-- The numeric value of a decimal digit character. -/
def digVal (c : Char) : ℕ := c.toNat - 48

/-- Value of a string of decimal digit characters, most significant first. -/
def valDigits (cs : PyStr) : ℕ := cs.foldl (fun a c => 10 * a + digVal c) 0

/-- Little-endian decimal digits of a natural number, with explicit fuel
(structural recursion, so that concrete inputs evaluate by kernel
reduction). -/
def digitsFuel : ℕ → ℕ → List ℕ
  | 0, _ => []
  | fuel + 1, n => if n = 0 then [] else n % 10 :: digitsFuel fuel (n / 10)

/-- Decimal digit characters of a natural number, as Python prints it. -/
def natChars (n : ℕ) : PyStr :=
  if n = 0 then ['0'] else ((digitsFuel n n).reverse.map digCh)

/-- Decimal representation of an integer, as Python `str(int)` prints it. -/
def intChars (i : ℤ) : PyStr :=
  (if i < 0 then ['-'] else []) ++ natChars i.natAbs

/-- Join a list of strings with a separator between consecutive elements
(the string built from pieces that Python `str.split(sep)` inverts). -/
def joinSep (sep : PyStr) : List PyStr → PyStr
  | [] => []
  | [x] => x
  | x :: y :: xs => x ++ sep ++ joinSep sep (y :: xs)

/-- Fuelled worker for `splitSub` (structural recursion on the fuel). -/
def splitSubF (sep : PyStr) : ℕ → PyStr → List PyStr
  | 0, s => [s]
  | fuel + 1, s =>
    match s with
    | [] => [[]]
    | c :: rest =>
      if sep.isPrefixOf (c :: rest) then
        [] :: splitSubF sep fuel ((c :: rest).drop sep.length)
      else
        ((splitSubF sep fuel rest).modifyHead (fun piece => c :: piece))

/-- Python `str.split(sep)` for a nonempty separator string: non-overlapping
left-to-right occurrences of `sep` divide the string into pieces. -/
def splitSub (sep : PyStr) (s : PyStr) : List PyStr := splitSubF sep s.length s

/-- Accumulator worker for `linesOf`. -/
def linesOfGo : PyStr → PyStr → List PyStr
  | acc, [] => if acc = [] then [] else [acc.reverse]
  | acc, c :: rest =>
    if c = nlCh then (acc.reverse ++ [nlCh]) :: linesOfGo [] rest
    else linesOfGo (c :: acc) rest

/-- Python text-mode line iteration: splits a file into lines, each keeping
its trailing newline; a final fragment without a newline is kept too. -/
def linesOf (s : PyStr) : List PyStr := linesOfGo [] s

/-- Whitespace as stripped by Python `int()`/`float()` around a literal. -/
def isSpaceCh (c : Char) : Bool :=
  c == ' ' || c == tabCh || c == nlCh || c == crCh

/-- Python's stripping of surrounding whitespace from a numeric literal. -/
def trimWS (s : PyStr) : PyStr :=
  ((s.dropWhile isSpaceCh).reverse.dropWhile isSpaceCh).reverse

/-- Floor of a rational as an integer (`q.den` is positive, so Euclidean
division of the numerator by the denominator is the floor). -/
def ratFloorZ (q : ℚ) : ℤ := q.num.ediv q.den

/-- Nearest integer with ties to even, as Python `round` resolves a value
exactly halfway between two integers. -/
def roundHalfEven (q : ℚ) : ℤ :=
  let f := ratFloorZ q
  if q - f < 1/2 then f
  else if 1/2 < q - f then f + 1
  else if f % 2 = 0 then f else f + 1

/-- Python `round(q, k)`: round to `k` decimal places, ties to even. -/
def pyRound (k : ℕ) (q : ℚ) : ℚ := (roundHalfEven (q * 10 ^ k) : ℚ) / 10 ^ k

/-- Python `int(q)` on a number: truncation toward zero. -/
def ratTrunc (q : ℚ) : ℤ := if 0 ≤ q then ratFloorZ q else -(ratFloorZ (-q))

/-- Python exceptions that the embedded fragments can raise.  A `ValueError`
carries the offending literal (CPython's message text contains that literal
and nothing else that varies — in particular no line number). -/
inductive PyError : Type
  | valueError (payload : PyStr)
  | indexError
  | zeroDivisionError
  | typeError
deriving DecidableEq

instance {ε α : Type} [DecidableEq ε] [DecidableEq α] : DecidableEq (Except ε α) :=
  fun a b =>
    match a, b with
    | .ok x, .ok y =>
        if h : x = y then .isTrue (by rw [h]) else .isFalse (by simp [h])
    | .error e, .error f =>
        if h : e = f then .isTrue (by rw [h]) else .isFalse (by simp [h])
    | .ok _, .error _ => .isFalse (by simp)
    | .error _, .ok _ => .isFalse (by simp)

/-- Parse a nonempty all-digit string as a natural number. -/
def pyParseNatDigits (cs : PyStr) : Option ℕ :=
  if cs ≠ [] ∧ cs.all Char.isDigit then some (valDigits cs) else none

/-- Strip an optional leading sign from a literal; the flag records a
leading minus. -/
def stripSign (t : PyStr) : Bool × PyStr :=
  match t with
  | [] => (false, [])
  | c :: r => if c = '+' then (false, r) else if c = '-' then (true, r) else (false, c :: r)

/-- Python `int(str)`: optional surrounding whitespace, optional sign,
nonempty digit string; anything else raises `ValueError` carrying the
original literal. -/
def pyParseInt (s : PyStr) : Except PyError ℤ :=
  let sp := stripSign (trimWS s)
  match pyParseNatDigits sp.2 with
  | some n => .ok (if sp.1 then -(n : ℤ) else (n : ℤ))
  | none => .error (.valueError s)

/-- Exponent suffix of a Python float literal: empty, or `e`/`E`, an optional
sign and a nonempty digit string consuming the rest of the literal. -/
def expPartVal (s : PyStr) : Option ℤ :=
  match s with
  | [] => some 0
  | c :: r =>
    if c = 'e' ∨ c = 'E' then
      let sp := stripSign r
      match pyParseNatDigits sp.2 with
      | some n => some (if sp.1 then -(n : ℤ) else (n : ℤ))
      | none => none
    else none

/-- Python `float(str)` for finite decimal literals: optional whitespace and
sign, digits with an optional point (at least one digit overall), optional
exponent.  Errors carry the original literal. -/
def pyParseFloat (s : PyStr) : Except PyError ℚ :=
  let sp := stripSign (trimWS s)
  let ip := sp.2.takeWhile Char.isDigit
  let rest := sp.2.dropWhile Char.isDigit
  match rest with
  | [] =>
    if ip = [] then .error (.valueError s)
    else .ok (if sp.1 then -(valDigits ip : ℚ) else (valDigits ip : ℚ))
  | c :: r2 =>
    if c = '.' then
      let fp := r2.takeWhile Char.isDigit
      let rest2 := r2.dropWhile Char.isDigit
      if ip = [] ∧ fp = [] then .error (.valueError s)
      else
        match expPartVal rest2 with
        | some e =>
            .ok ((if sp.1 then -1 else 1) *
              ((valDigits ip : ℚ) + (valDigits fp : ℚ) / 10 ^ fp.length) * 10 ^ e)
        | none => .error (.valueError s)
    else
      if ip = [] then .error (.valueError s)
      else
        match expPartVal (c :: r2) with
        | some e =>
            .ok ((if sp.1 then -1 else 1) * (valDigits ip : ℚ) * 10 ^ e)
        | none => .error (.valueError s)

/-- Python source `strToFloat` (scoreSVs.py): a literal containing `/` is
split into two integers and divided, the quotient rounded to 2 places
(a multi-`/` literal fails tuple unpacking with `ValueError`; a zero
denominator raises `ZeroDivisionError`); otherwise `float()` parses it. -/
def strToFloat (s : PyStr) : Except PyError ℚ :=
  if '/' ∈ s then
    match splitSub ['/'] s with
    | [num, denom] =>
      match pyParseInt num with
      | .error e => .error e
      | .ok n =>
        match pyParseInt denom with
        | .error e => .error e
        | .ok d =>
          if d = 0 then .error .zeroDivisionError
          else .ok (pyRound 2 ((n : ℚ) / (d : ℚ)))
    | _ => .error (.valueError s)
  else pyParseFloat s

/-- Fuelled multiplicity of a prime `p` in `n` (structural recursion). -/
def countFacF : ℕ → ℕ → ℕ → ℕ
  | 0, _, _ => 0
  | fuel + 1, p, n =>
    if 2 ≤ p ∧ n ≠ 0 ∧ n % p = 0 then countFacF fuel p (n / p) + 1 else 0

/-- Multiplicity of `p` in `n` (fuel `n` always suffices). -/
def countFac (p n : ℕ) : ℕ := countFacF n p n

/-- A rational whose reduced denominator is of the form `2^a * 5^b`; exactly
the values with a finite decimal expansion.  Every finite Python float is
such a value. -/
def IsDecimalQ (q : ℚ) : Prop :=
  q.den = 2 ^ countFac 2 q.den * 5 ^ countFac 5 q.den

instance (q : ℚ) : Decidable (IsDecimalQ q) := by
  unfold IsDecimalQ; infer_instance

/-- Left-pad a digit string with zeros to at least `k` characters. -/
def padZeros (k : ℕ) (s : PyStr) : PyStr :=
  List.replicate (k - s.length) '0' ++ s

/-- Render the decimal number `n / 10^k` the way Python `str(float)` does on
a value inside the non-exponent range: sign, integer part, a point, and `k`
fractional digits (`".0"` when `k = 0`). -/
def decimalOfScaled (n : ℤ) (k : ℕ) : PyStr :=
  let s := padZeros (k + 1) (natChars n.natAbs)
  let ip := s.take (s.length - k)
  let fp := s.drop (s.length - k)
  (if n < 0 then ['-'] else []) ++ ip ++ '.' :: (if k = 0 then ['0'] else fp)

/-- Python `str` of a float, modelled as the exact decimal expansion of a
decimal-fraction rational. -/
def decimalRepr (q : ℚ) : PyStr :=
  let a := countFac 2 q.den
  let b := countFac 5 q.den
  let k := max a b
  decimalOfScaled (q.num * ((2 ^ (k - a) * 5 ^ (k - b) : ℕ) : ℤ)) k

/-- The value a score slice's `beat` field can hold after `extractData`
rounded it to two places: a Python float, or a `fractions.Fraction` (music21
returns either), which `str` print differently. -/
inductive BeatV : Type
  | flt (q : ℚ)
  | frac (q : ℚ)
deriving DecidableEq

/-- The rational value of a `beat` field. -/
def BeatV.val : BeatV → ℚ
  | .flt q => q
  | .frac q => q

/-- Python `str` of a `beat` value: a float prints as a decimal; a
`Fraction` prints as `num/den`, or just `num` when the reduced denominator
is 1. -/
def beatRepr : BeatV → PyStr
  | .flt q => decimalRepr q
  | .frac q =>
      if q.den = 1 then intChars q.num
      else intChars q.num ++ '/' :: natChars q.den

/-- The slice record as `ScoreInfoSV.extractData` builds it (source class
`TableEntry` before serialisation): rests leave the four chord fields as
`None`; `primeForm`/`normalOrder` are music21 lists of pitch-class
integers. -/
structure ScoreEntry : Type where
  measure : ℤ
  beat : BeatV
  beatStrength : ℚ
  length : ℚ
  pitches : Option (List PyStr)
  intervals : Option (List PyStr)
  primeForm : Option (List ℤ)
  normalOrder : Option (List ℤ)
deriving DecidableEq

/-- The slice record as `SVInfo.parseSV` rebuilds it from a file: every
field is populated, the list fields as lists of strings and the two label
fields as raw strings (source class `TableEntry` after parsing). -/
structure TableEntry : Type where
  measure : ℤ
  beat : ℚ
  beatStrength : ℚ
  length : ℚ
  pitches : List PyStr
  intervals : List PyStr
  primeForm : PyStr
  normalOrder : PyStr
deriving DecidableEq

/-- Python `repr` of one string without special characters: wrapped in
single quotes. -/
def pyStrReprOne (p : PyStr) : PyStr := aposCh :: p ++ [aposCh]

/-- Python `str` of a list of strings: `['a', 'b']`, `[]` when empty. -/
def listStrRepr (l : List PyStr) : PyStr :=
  '[' :: joinSep [',', ' '] (l.map pyStrReprOne) ++ [']']

/-- A pitch/interval cell as `csv.writer` emits it: the `str` of the list,
but the empty string for a rest's `None` (the `csv` module writes `None`
as an empty cell, not as the text `None`). -/
def optListStrRepr : Option (List PyStr) → PyStr
  | none => []
  | some l => listStrRepr l

/-- Python `str` of a list of integers: `[0, 4, 7]`. -/
def listIntRepr (l : List ℤ) : PyStr :=
  '[' :: joinSep [',', ' '] (l.map intChars) ++ [']']

/-- A `primeForm`/`normalOrder` cell as `csv.writer` emits it: the `str`
of the integer list, but an empty cell for a rest's `None`. -/
def optIntsRepr : Option (List ℤ) → PyStr
  | none => []
  | some l => listIntRepr l

/-- The eight cells `makeSV` writes for one entry, in the source's order. -/
def entryFields (e : ScoreEntry) : List PyStr :=
  [intChars e.measure, beatRepr e.beat, decimalRepr e.beatStrength,
   decimalRepr e.length, optListStrRepr e.pitches, optListStrRepr e.intervals,
   optIntsRepr e.primeForm, optIntsRepr e.normalOrder]

/-- Does `csv.QUOTE_MINIMAL` quote this cell: it contains the delimiter, the
quote character, or a line-terminator character. -/
def needsQuote (s : PyStr) : Bool :=
  s.any (fun c => c == tabCh || c == quoteCh || c == crCh || c == nlCh)

/-- CSV quote doubling inside a quoted cell. -/
def escapeQuotes (s : PyStr) : PyStr :=
  s.flatMap (fun c => if c = quoteCh then [quoteCh, quoteCh] else [c])

/-- A cell as the CSV writer emits it under `QUOTE_MINIMAL`. -/
def quoteField (s : PyStr) : PyStr :=
  if needsQuote s then quoteCh :: escapeQuotes s ++ [quoteCh] else s

/-- One output row of `makeSV` with the tab delimiter: the eight cells
joined by tabs and ended by the line terminator (CRLF on disk, read back as
one newline in text mode). -/
def serializeEntry (e : ScoreEntry) : PyStr :=
  joinSep [tabCh] ((entryFields e).map quoteField) ++ [nlCh]

/-- Source `ScoreInfoSV.makeSV` with the default tab delimiter: the file
contents written for a slice sequence. -/
def makeSV (entries : List ScoreEntry) : PyStr :=
  (entries.map serializeEntry).flatten

/-- Python `values[i]`: the cell at an index, `IndexError` out of range. -/
def getF (vs : List PyStr) (i : ℕ) : Except PyError PyStr :=
  match vs.get? i with
  | some v => .ok v
  | none => .error .indexError

/-- The separator `', '` (quote, comma, space, quote) that `parseSV` splits
the bracketed list fields on. -/
def sep4 : PyStr := aposCh :: ',' :: ' ' :: [aposCh]

/-- Source `parseSV`'s decoding of a pitches/intervals cell:
`values[i][2:-2].split("', '")`. -/
def parsePitchesField (s : PyStr) : List PyStr :=
  splitSub sep4 ((s.drop 2).dropLast.dropLast)

/-- Source `SVInfo.parseSV` on one line, faithful to the order the source
reads and converts the cells in. -/
def parseLine (line : PyStr) : Except PyError TableEntry := do
  let values := splitSub [tabCh] line
  let v0 ← getF values 0
  let m ← pyParseInt v0
  let v1 ← getF values 1
  let b ← strToFloat v1
  let v2 ← getF values 2
  let bs ← pyParseFloat v2
  let v3 ← getF values 3
  let len ← strToFloat v3
  let v4 ← getF values 4
  let v5 ← getF values 5
  let v6 ← getF values 6
  let v7 ← getF values 7
  return { measure := m, beat := b, beatStrength := bs, length := len,
           pitches := parsePitchesField v4, intervals := parsePitchesField v5,
           primeForm := v6, normalOrder := v7.dropLast }

/-- Run an effectful step over a list, stopping at the first exception, as a
Python `for` loop over the lines of a file does. -/
def exceptMapM {α β : Type} (g : α → Except PyError β) : List α → Except PyError (List β)
  | [] => .ok []
  | x :: xs =>
    match g x with
    | .error e => .error e
    | .ok y =>
      match exceptMapM g xs with
      | .error e => .error e
      | .ok ys => .ok (y :: ys)

/-- Source `SVInfo.parseSV` over a whole file's contents. -/
def parseSV (file : PyStr) : Except PyError (List TableEntry) :=
  exceptMapM parseLine (linesOf file)

/-- The encoding `parseSV` gives a serialised pitches/intervals field: a
`None` field and an empty-list field both come back as the one-element list
containing the empty string; a nonempty list comes back as itself. -/
def encField : Option (List PyStr) → List PyStr
  | none => [[]]
  | some [] => [[]]
  | some l => l

/-- The entry `parseSV` reconstructs from the serialised form of a clean
score entry: scalars exactly, list fields through `encField`, and the two
label fields as the cell text that was written (the empty string for a
rest, since `csv.writer` renders `None` as an empty cell). -/
def roundTripImage (e : ScoreEntry) : TableEntry :=
  { measure := e.measure, beat := e.beat.val, beatStrength := e.beatStrength,
    length := e.length, pitches := encField e.pitches,
    intervals := encField e.intervals, primeForm := optIntsRepr e.primeForm,
    normalOrder := optIntsRepr e.normalOrder }

/-- A string free of the characters that would change the CSV quoting or the
bracketed-list decoding: no tab, double quote, CR, LF or single quote.
Pitch and interval names produced by music21 satisfy this. -/
def CleanStr (p : PyStr) : Prop :=
  ∀ c ∈ p, c ≠ tabCh ∧ c ≠ quoteCh ∧ c ≠ crCh ∧ c ≠ nlCh ∧ c ≠ aposCh

instance (p : PyStr) : Decidable (CleanStr p) := by
  unfold CleanStr; infer_instance

/-- Cleanliness of an optional list-of-strings field. -/
def CleanStrs : Option (List PyStr) → Prop
  | none => True
  | some l => ∀ p ∈ l, CleanStr p

instance (o : Option (List PyStr)) : Decidable (CleanStrs o) := by
  cases o <;> unfold CleanStrs <;> infer_instance

/-- What `extractData` guarantees of a `beat` value: a float is a decimal
fraction; a `Fraction` has been rounded to 2 places, so its reduced
denominator divides 100. -/
def BeatOK : BeatV → Prop
  | .flt q => IsDecimalQ q
  | .frac q => q.den ∣ 100

instance (b : BeatV) : Decidable (BeatOK b) := by
  cases b <;> unfold BeatOK <;> infer_instance

/-- An entry whose numeric fields are the values Python floats (or 2-place
Fractions) can hold and whose string fields are quoting-safe: every entry
`extractData` produces is of this form. -/
def CleanEntry (e : ScoreEntry) : Prop :=
  BeatOK e.beat ∧ IsDecimalQ e.beatStrength ∧ IsDecimalQ e.length ∧
    CleanStrs e.pitches ∧ CleanStrs e.intervals

instance (e : ScoreEntry) : Decidable (CleanEntry e) := by
  unfold CleanEntry; infer_instance

/-- Source `SVInfo.setsOfType` with `measures=True`: scan the sequence, and
for each entry whose `primeForm` equals the queried chord type add its
length (weighted) or 1 to the count and append its measure number; the
count is rounded to 3 places on return.  (With `measures=False` the source
returns the first component alone.) -/
def setsOfType (data : List TableEntry) (chordType : PyStr) (weighted : Bool) :
    ℚ × List ℤ :=
  let r := data.foldl
    (fun acc entry =>
      if entry.primeForm = chordType then
        ((acc.1 + if weighted then entry.length else 1), acc.2 ++ [entry.measure])
      else acc)
    ((0 : ℚ), ([] : List ℤ))
  (pyRound 3 r.1, r.2)

/-- First-occurrence deduplication worker (`dict.fromkeys` order). -/
def dkfGo {α : Type} [DecidableEq α] (seen : List α) : List α → List α
  | [] => []
  | x :: xs => if x ∈ seen then dkfGo seen xs else x :: dkfGo (x :: seen) xs

/-- Python `list(dict.fromkeys(l))`: drop every occurrence after the first,
keeping first-occurrence order. -/
def dedupKeepFirst {α : Type} [DecidableEq α] (l : List α) : List α := dkfGo [] l

/-- Source `SVInfo.intervalsOfType` with `measures=True`: an entry matches
when its interval list meets the queried interval list; matching measures
are collected in encounter order and deduplicated on return. -/
def intervalsOfType (data : List TableEntry) (intervals : List PyStr)
    (weighted : Bool) : ℚ × List ℤ :=
  let r := data.foldl
    (fun acc entry =>
      if (intervals.filter (fun i => i ∈ entry.intervals)) ≠ [] then
        ((acc.1 + if weighted then entry.length else 1), acc.2 ++ [entry.measure])
      else acc)
    ((0 : ℚ), ([] : List ℤ))
  (pyRound 3 r.1, dedupKeepFirst r.2)

/-- The measures of the entries of a given prime-form type, in encounter
order with repeats — the reference value for `setsOfType`'s measure list. -/
def setsMeasures (data : List TableEntry) (chordType : PyStr) : List ℤ :=
  (data.filter (fun e => e.primeForm = chordType)).map (fun e => e.measure)

/-- The measures of the entries meeting the queried interval list, in
encounter order with repeats — what `intervalsOfType` deduplicates. -/
def intervalsMeasures (data : List TableEntry) (intervals : List PyStr) : List ℤ :=
  (data.filter (fun e => (intervals.filter (fun i => i ∈ e.intervals)) ≠ [])).map
    (fun e => e.measure)

/-- Index of the first occurrence of an element in a list (list length when
absent). -/
def firstIdx {α : Type} [DecidableEq α] : List α → α → ℕ
  | [], _ => 0
  | x :: xs, a => if x = a then 0 else firstIdx xs a + 1

/-- Source `SVInfo.compareAllPrimes`.  The branch for the quality name
`triads` calls `hitList.append` with four arguments, which Python rejects
with a `TypeError` before any result is built; an empty hit list raises
`ValueError`; with `Proportions` requested over an empty file the first
proportion divides by zero. -/
def compareAllPrimes (primes : List PyStr) (triadsOfInterest : List PyStr)
    (Counts Proportions : Bool) : Except PyError (List (PyStr × ℚ)) :=
  let total : ℕ := primes.length
  let hitList : List PyStr :=
    (if ("major").data ∈ triadsOfInterest then [("[0, 4, 7]").data] else []) ++
    (if ("minor").data ∈ triadsOfInterest then [("[0, 3, 7]").data] else []) ++
    (if ("diminished").data ∈ triadsOfInterest then [("[0, 3, 6]").data] else []) ++
    (if ("augmented").data ∈ triadsOfInterest then [("[0, 4, 8]").data] else [])
  if ("triads").data ∈ triadsOfInterest then .error .typeError
  else if hitList = [] then .error (.valueError ("triad types").data)
  else if Proportions ∧ total = 0 then .error .zeroDivisionError
  else
    .ok ((if Counts then [(("Overall").data, (total : ℚ))] else []) ++
      hitList.flatMap (fun triad =>
        let c : ℕ := primes.count triad
        (if Counts then [(triad ++ (" Count").data, (c : ℚ))] else []) ++
        (if Proportions then [(triad ++ (" Proportion").data, (c : ℚ) / total)] else [])))

/-- Positions (0-based) of the entries equal to a target, as the source's
`enumerate` comprehension collects them, starting the count at `i`. -/
def positionsFrom {α : Type} [DecidableEq α] (t : α) : ℕ → List α → List ℕ
  | _, [] => []
  | i, x :: xs =>
      if x = t then i :: positionsFrom t (i + 1) xs else positionsFrom t (i + 1) xs

/-- All positions of the target chord in the prime-form list. -/
def positionsOf (primes : List PyStr) (t : PyStr) : List ℕ :=
  positionsFrom t 0 primes

/-- The successor-collection loop of `SVInfo.followChord`: for every
position of the target chord, read the label at the following position
(`self.primes[p + 1]`), raising `IndexError` when there is none. -/
def followChordSuccessors (primes : List PyStr) (t : PyStr) :
    Except PyError (List PyStr) :=
  exceptMapM
    (fun p =>
      if h : p + 1 < primes.length then .ok (primes.get ⟨p + 1, h⟩)
      else .error .indexError)
    (positionsOf primes t)

/-- Source static function `split`: deep-copy the entry, divide its length
by `n`, and return `n` references to the one shortened copy (`n = 0`
raises `ZeroDivisionError` from the division). -/
def split (entry : TableEntry) (n : ℤ) : Except PyError (List TableEntry) :=
  if n = 0 then .error .zeroDivisionError
  else .ok (List.replicate n.toNat { entry with length := entry.length / (n : ℚ) })

/-- The permitted slice widths exactly as the source lists them (note
`0.625`, not the sixteenth-note `0.0625`). -/
def sliceWidthOptions : List ℚ := [0.625, 0.125, 0.25, 0.5, 0.75, 1.0, 1.5, 2.0, 3.0, 4.0]

/-- The `sliceWidth` argument of `evenSlices`: the default string `auto`, a
number, or any other (non-`auto`) string. -/
inductive WidthArg : Type
  | auto
  | num (q : ℚ)
  | str (s : PyStr)
deriving DecidableEq

/-- An outcome of running a Python fragment that can also fail to
terminate. -/
inductive PyResult (α : Type) : Type
  | ok (val : α)
  | err (e : PyError)
  | hang
deriving DecidableEq

/-- The width-selection prelude of `evenSlices`: `auto` takes the minimum
length and checks it against the permitted list (`min` of an empty list
raises `ValueError`); an explicit number is accepted unchecked, because the
source only tests membership when the argument is not a float or int; any
other string always fails the membership test and raises. -/
def resolveWidth (data : List TableEntry) : WidthArg → Except PyError ℚ
  | .auto =>
    match data.map (fun e => e.length) with
    | [] => .error (.valueError ("min of empty").data)
    | x :: xs =>
      if xs.foldl min x ∈ sliceWidthOptions then .ok (xs.foldl min x)
      else .error (.valueError ("min slice width").data)
  | .num q => .ok q
  | .str s => .error (.valueError s)

/-- Sum of the `length` fields of a slice sequence. -/
def sumLengths (data : List TableEntry) : ℚ :=
  (data.map (fun e => e.length)).sum

/-- The main loop of `evenSlices` over the remaining entries.  An entry
longer than the width is split into `int(length/width)` copies; an entry of
the width, or shorter, is appended as-is.  The short-entry branch also runs
an accumulation loop that never affects the output (rebinding the loop
index does not change the outer `for`): its only observable effect is to
loop forever when twice the entry's length plus the lengths of all later
entries stays below the width, which `PyResult.hang` records. -/
def evenLoop (w : ℚ) : List TableEntry → PyResult (List TableEntry)
  | [] => .ok []
  | e :: rest =>
    if e.length > w then
      match split e (ratTrunc (e.length / w)) with
      | .error err => .err err
      | .ok pieces =>
        match evenLoop w rest with
        | .ok out => .ok (pieces ++ out)
        | other => other
    else if e.length = w then
      match evenLoop w rest with
      | .ok out => .ok (e :: out)
      | other => other
    else
      if 2 * e.length + sumLengths rest < w then .hang
      else
        match evenLoop w rest with
        | .ok out => .ok (e :: out)
        | other => other

/-- Source `SVInfo.evenSlices`: resolve the width, then rebuild the slice
list. -/
def evenSlices (data : List TableEntry) (arg : WidthArg) : PyResult (List TableEntry) :=
  match resolveWidth data arg with
  | .error e => .err e
  | .ok w => evenLoop w data

/-- A width argument the specification calls valid: `auto`, or an explicit
number from the permitted list. -/
def WidthValidArg : WidthArg → Prop
  | .auto => True
  | .num q => q ∈ sliceWidthOptions
  | .str _ => False

instance (a : WidthArg) : Decidable (WidthValidArg a) := by
  cases a <;> unfold WidthValidArg <;> infer_instance

/-- Source `SVInfo.writeEvenMIDI`, abstracted over the music21 pitch-name to
MIDI-number collaborator: one output row of MIDI numbers per slice, skipping
exactly the slices whose pitches field is `['']`. -/
def writeEvenMIDIlines (midi : PyStr → ℕ) : List TableEntry → List (List ℕ)
  | [] => []
  | x :: xs =>
    if x.pitches ≠ [[]] then (x.pitches.map midi) :: writeEvenMIDIlines midi xs
    else writeEvenMIDIlines midi xs

/-- Is an `Except` outcome an exception. -/
def isErr {α : Type} : Except PyError α → Bool
  | .error _ => true
  | .ok _ => false

/-- A line `parseSV` cannot accept: fewer than eight tab-separated cells, or
a numeric cell its conversion rejects. -/
def MalformedLine (line : PyStr) : Prop :=
  let values := splitSub [tabCh] line
  values.length < 8 ∨
    isErr (pyParseInt (values.getD 0 [])) = true ∨
    isErr (strToFloat (values.getD 1 [])) = true ∨
    isErr (pyParseFloat (values.getD 2 [])) = true ∨
    isErr (strToFloat (values.getD 3 [])) = true

instance (line : PyStr) : Decidable (MalformedLine line) := by
  unfold MalformedLine; infer_instance

/-- A three-pitch chord entry as `extractData` produces one (used as a
concrete input by witnesses). -/
def chordE : ScoreEntry :=
  { measure := 1, beat := .flt 1.5, beatStrength := 0.25, length := 2,
    pitches := some [("C4").data, ("E4").data, ("G4").data],
    intervals := some [("M3").data, ("m3").data, ("P5").data],
    primeForm := some [0, 4, 7], normalOrder := some [0, 4, 7] }

/-- A rest entry with a `Fraction`-valued beat (`round(4/3, 2) = 133/100`). -/
def restE : ScoreEntry :=
  { measure := 2, beat := .frac (133/100), beatStrength := 0.5, length := 0.5,
    pitches := none, intervals := none, primeForm := none, normalOrder := none }

/-- A chord entry holding a single pitch: `getIntervals` returns `[]` for
it, which the serialise/parse cycle does not give back. -/
def singlePitchE : ScoreEntry :=
  { measure := 1, beat := .flt 1, beatStrength := 1, length := 1,
    pitches := some [("C4").data], intervals := some [],
    primeForm := some [0], normalOrder := some [0] }

/-- A concrete parsed slice for fixtures: one pitch, no intervals. -/
def teFix (m : ℤ) (len : ℚ) (pf : PyStr) : TableEntry :=
  { measure := m, beat := 1, beatStrength := 1, length := len,
    pitches := [("C4").data], intervals := [],
    primeForm := pf, normalOrder := ("[0]").data }

/-- A file consisting of one malformed line (`int("x\n")` fails). -/
def badFile : PyStr := ("x").data ++ [nlCh]

/-- The same malformed line preceded by a well-formed one, so the bad line
sits at a different line number. -/
def goodThenBadFile : PyStr := serializeEntry chordE ++ badFile

/-- A line with nine tab-separated cells: one more than the format has. -/
def nineCellLine : PyStr :=
  joinSep [tabCh]
    [("1").data, ("1.5").data, ("0.25").data, ("2.0").data,
     listStrRepr [("C4").data], listStrRepr [],
     listIntRepr [0], listIntRepr [0], ("extra").data] ++ [nlCh]

/-- C9: a serialised rest slice's pitches cell — written by `csv.writer`
as an empty cell, and likewise the cell texts `None` and `[]` — parses to
the one-element pitch list `['']`, neither `None` nor the empty list; and
`writeEvenMIDI` emits a row for exactly the slices whose pitch list
differs from `['']`, so rest slices produce no MIDI output row. -/
theorem restPitches_midi_skip :
    parsePitchesField (optListStrRepr none) = [([] : PyStr)] ∧
    parsePitchesField (("None").data) = [([] : PyStr)] ∧
    parsePitchesField (listStrRepr []) = [([] : PyStr)] ∧
    [([] : PyStr)] ≠ ([] : List PyStr) ∧
    ∀ (midi : PyStr → ℕ) (slices : List TableEntry),
      writeEvenMIDIlines midi slices =
        (slices.filter (fun x => decide (x.pitches ≠ [([] : PyStr)]))).map
          (fun x => x.pitches.map midi) := by
  refine ⟨by decide, by decide, by decide, by decide, ?_⟩
  intro midi slices
  induction slices with
  | nil => rfl
  | cons x xs ih =>
    by_cases h : x.pitches = [([] : PyStr)]
    · simp [writeEvenMIDIlines, h, ih]
    · simp [writeEvenMIDIlines, h, ih]

/-- C10: for a positive `n`, `split` returns exactly `n` entries, each equal
to the input except that its length is the input's length divided by `n`,
and all returned entries are equal to one another (the source returns `n`
occurrences of the one copied record). -/
theorem split_spec (e : TableEntry) (n : ℤ) (h : 0 < n) :
    ∃ l, split e n = .ok l ∧ (l.length : ℤ) = n ∧
      (∀ x ∈ l, x = { e with length := e.length / (n : ℚ) }) ∧
      ∀ x ∈ l, ∀ y ∈ l, x = y := by
  refine ⟨List.replicate n.toNat { e with length := e.length / (n : ℚ) }, ?_, ?_, ?_, ?_⟩
  · simp [split, show n ≠ 0 by omega]
  · simp [Int.toNat_of_nonneg h.le]
  · intro x hx
    exact List.eq_of_mem_replicate hx
  · intro x hx y hy
    rw [List.eq_of_mem_replicate hx, List.eq_of_mem_replicate hy]

/-- Closed instantiation of `split_spec` at a concrete entry and `n = 2`. -/
theorem split_spec_witness :
    ∃ l, split (teFix 1 1 (("[0]").data)) 2 = .ok l ∧ (l.length : ℤ) = 2 ∧
      (∀ x ∈ l, x = { teFix 1 1 (("[0]").data) with
                        length := (teFix 1 1 (("[0]").data)).length / ((2 : ℤ) : ℚ) }) ∧
      ∀ x ∈ l, ∀ y ∈ l, x = y :=
  split_spec (teFix 1 1 (("[0]").data)) 2 (by decide)

/-- C3 (code bug): the source's width validation tests membership in the
permitted list only when the argument is not a float or an int, so an
explicit numeric width outside the permitted set — here `0.3` — is accepted
and used instead of raising `ValueError` (the permitted list itself also
reads `0.625` where the specification says `1/16`). -/
theorem evenSlices_accepts_invalid_width :
    ((3 : ℚ)/10 ∉ sliceWidthOptions) ∧
    evenSlices [teFix 1 0.6 (("[0]").data)] (.num (3/10)) =
      .ok [teFix 1 0.3 (("[0]").data), teFix 1 0.3 (("[0]").data)] := by
  decide

/-- C5 (code bug): requesting the quality name `triads` reaches
`hitList.append('[0, 4, 7]', '[0, 3, 7]', '[0, 3, 6]', '[0, 4, 8]')`, a
four-argument call to `list.append`, so `compareAllPrimes` raises
`TypeError` instead of selecting the four triad labels and reporting. -/
theorem compareAllPrimes_triads_typeError :
    compareAllPrimes [("[0, 4, 7]").data] [("triads").data] true true =
      .error .typeError := by
  decide

/-- The entry the parser accepts from the nine-cell line: the ninth cell is
ignored and the eighth loses its final character to the `[:-1]` strip. -/
def nineCellParsed : TableEntry :=
  { measure := 1, beat := 1.5, beatStrength := 0.25, length := 2,
    pitches := [("C4").data], intervals := [([] : PyStr)],
    primeForm := ("[0]").data, normalOrder := ("[0").data }

/-- Both bounds of the integer floor computed by `ratFloorZ`. -/
theorem ratFloorZ_bounds (q : ℚ) : (ratFloorZ q : ℚ) ≤ q ∧ q < ratFloorZ q + 1 := by
  have hden : (0 : ℤ) < (q.den : ℤ) := by exact_mod_cast q.pos
  have hdec : (q.den : ℤ) * q.num.ediv q.den + q.num.emod q.den = q.num :=
    Int.ediv_add_emod q.num q.den
  have hr0 : (0 : ℤ) ≤ q.num.emod q.den := Int.emod_nonneg q.num (by omega)
  have hr1 : q.num.emod q.den < (q.den : ℤ) := Int.emod_lt_of_pos q.num hden
  have hdenQ : (0 : ℚ) < (q.den : ℚ) := by exact_mod_cast hden
  have hden0 : ((q.den : ℚ)) ≠ 0 := ne_of_gt hdenQ
  have hmul : (q.num : ℚ) = q * (q.den : ℚ) := by
    have h := Rat.num_div_den q
    exact ((div_eq_iff hden0).mp h).symm.symm
  have hnum : (q.num : ℚ) =
      (q.den : ℚ) * (ratFloorZ q : ℚ) + ((q.num.emod q.den : ℤ) : ℚ) := by
    rw [ratFloorZ]
    exact_mod_cast hdec.symm
  have hr0Q : (0 : ℚ) ≤ ((q.num.emod q.den : ℤ) : ℚ) := by exact_mod_cast hr0
  have hr1Q : ((q.num.emod q.den : ℤ) : ℚ) < (q.den : ℚ) := by exact_mod_cast hr1
  constructor
  · nlinarith [hmul, hnum, hr0Q, hdenQ]
  · nlinarith [hmul, hnum, hr1Q, hdenQ]

/-- The truncation `ratTrunc` of a rational above 1 is at least 1. -/
theorem one_le_ratTrunc (q : ℚ) (h : 1 < q) : 1 ≤ ratTrunc q := by
  have h0 : (0 : ℚ) ≤ q := le_of_lt (lt_trans one_pos h)
  rw [ratTrunc, if_pos h0]
  have hb := (ratFloorZ_bounds q).2
  have : (1 : ℚ) < (ratFloorZ q : ℚ) + 1 := lt_trans h hb
  have : (0 : ℚ) < (ratFloorZ q : ℚ) := by linarith
  exact_mod_cast this

/-- Sum of lengths distributes over list append. -/
theorem sumLengths_append (a b : List TableEntry) :
    sumLengths (a ++ b) = sumLengths a + sumLengths b := by
  simp [sumLengths]

/-- Sum of lengths over identical copies. -/
theorem sumLengths_replicate (k : ℕ) (e : TableEntry) :
    sumLengths (List.replicate k e) = (k : ℚ) * e.length := by
  induction k with
  | zero => simp [sumLengths]
  | succ n ih =>
    rw [List.replicate_succ]
    have : sumLengths (e :: List.replicate n e) =
        e.length + sumLengths (List.replicate n e) := by
      simp [sumLengths]
    rw [this, ih]
    push_cast
    ring

/-- The resegmentation loop preserves the total duration whenever it
returns: each branch contributes exactly the length of the entry it
consumes. -/
theorem evenLoop_ok_sum (w : ℚ) (hw : 0 < w) :
    ∀ (data out : List TableEntry), evenLoop w data = .ok out →
      sumLengths out = sumLengths data := by
  intro data
  induction data with
  | nil =>
    intro out h
    simp only [evenLoop] at h
    cases h
    rfl
  | cons e rest ih =>
    intro out h
    rw [evenLoop] at h
    by_cases h1 : e.length > w
    · rw [if_pos h1] at h
      have hgt1 : 1 < e.length / w := (one_lt_div hw).mpr h1
      have hm : 1 ≤ ratTrunc (e.length / w) := one_le_ratTrunc _ hgt1
      have hm0 : ratTrunc (e.length / w) ≠ 0 := by omega
      rw [split, if_neg hm0] at h
      cases hrec : evenLoop w rest with
      | ok out2 =>
        rw [hrec] at h
        cases h
        rw [sumLengths_append, sumLengths_replicate, ih out2 hrec]
        have hmQ : ((ratTrunc (e.length / w) : ℤ) : ℚ) ≠ 0 := by
          exact_mod_cast hm0
        have hcast : ((ratTrunc (e.length / w)).toNat : ℚ) =
            ((ratTrunc (e.length / w) : ℤ) : ℚ) := by
          exact_mod_cast Int.toNat_of_nonneg (by omega)
        rw [hcast, mul_div_cancel₀ _ hmQ]
        simp [sumLengths]
      | err e2 => rw [hrec] at h; cases h
      | hang => rw [hrec] at h; cases h
    · rw [if_neg h1] at h
      by_cases h2 : e.length = w
      · rw [if_pos h2] at h
        cases hrec : evenLoop w rest with
        | ok out2 =>
          rw [hrec] at h
          cases h
          have : sumLengths (e :: out2) = e.length + sumLengths out2 := by
            simp [sumLengths]
          rw [this, ih out2 hrec]
          simp [sumLengths]
        | err e2 => rw [hrec] at h; cases h
        | hang => rw [hrec] at h; cases h
      · rw [if_neg h2] at h
        by_cases h3 : 2 * e.length + sumLengths rest < w
        · rw [if_pos h3] at h; cases h
        · rw [if_neg h3] at h
          cases hrec : evenLoop w rest with
          | ok out2 =>
            rw [hrec] at h
            cases h
            have : sumLengths (e :: out2) = e.length + sumLengths out2 := by
              simp [sumLengths]
            rw [this, ih out2 hrec]
            simp [sumLengths]
          | err e2 => rw [hrec] at h; cases h
          | hang => rw [hrec] at h; cases h

/-- Every permitted slice width is positive. -/
theorem sliceWidthOptions_pos : ∀ w ∈ sliceWidthOptions, 0 < w := by decide

/-- C2: whenever `evenSlices` returns a sequence — for the inferred `auto`
width or any explicitly supplied permitted width — the sum of the `length`
fields of the result equals the sum over the input sequence (exactly, in
the rational model of float arithmetic). -/
theorem evenSlices_total_length (data : List TableEntry) (arg : WidthArg)
    (out : List TableEntry) (harg : WidthValidArg arg)
    (h : evenSlices data arg = .ok out) :
    sumLengths out = sumLengths data := by
  cases arg with
  | auto =>
    rw [evenSlices] at h
    cases hres : resolveWidth data .auto with
    | error e => rw [hres] at h; cases h
    | ok w =>
      rw [hres] at h
      have hwmem : w ∈ sliceWidthOptions := by
        rw [resolveWidth] at hres
        split at hres
        · exact Except.noConfusion hres
        · split at hres
          · rename_i hm
            cases hres
            exact hm
          · exact Except.noConfusion hres
      exact evenLoop_ok_sum w (sliceWidthOptions_pos w hwmem) data out h
  | num q =>
    rw [evenSlices, resolveWidth] at h
    exact evenLoop_ok_sum q (sliceWidthOptions_pos q harg) data out h
  | str s =>
    cases harg

/-- Closed instantiation of `evenSlices_total_length`: a two-entry sequence
of lengths 2 and 1 resegmented at width 1. -/
theorem evenSlices_total_length_witness :
    sumLengths [teFix 1 1 (("[0]").data), teFix 1 1 (("[0]").data),
        teFix 2 1 (("[0]").data)] =
      sumLengths [teFix 1 2 (("[0]").data), teFix 2 1 (("[0]").data)] :=
  evenSlices_total_length
    [teFix 1 2 (("[0]").data), teFix 2 1 (("[0]").data)] (.num 1)
    [teFix 1 1 (("[0]").data), teFix 1 1 (("[0]").data), teFix 2 1 (("[0]").data)]
    (by decide) (by decide)

/-- C8: when every entry of the queried chord type has length 1, the
weighted count of `setsOfType` equals the unweighted count, and the measure
list is the same (the pair of results is equal). -/
theorem setsOfType_weighted_unit_lengths (data : List TableEntry) (t : PyStr)
    (h : ∀ e ∈ data, e.primeForm = t → e.length = 1) :
    setsOfType data t true = setsOfType data t false := by
  unfold setsOfType
  have key := List.foldl_ext
    (fun (acc : ℚ × List ℤ) entry =>
      if entry.primeForm = t then
        ((acc.1 + if (true : Bool) then entry.length else 1), acc.2 ++ [entry.measure])
      else acc)
    (fun (acc : ℚ × List ℤ) entry =>
      if entry.primeForm = t then
        ((acc.1 + if (false : Bool) then entry.length else 1), acc.2 ++ [entry.measure])
      else acc)
    ((0 : ℚ), ([] : List ℤ))
    (l := data)
    (by
      intro acc e he
      dsimp only
      by_cases hpf : e.primeForm = t
      · rw [if_pos hpf, if_pos hpf, h e he hpf]
        simp
      · rw [if_neg hpf, if_neg hpf])
  rw [key]

/-- Closed instantiation of `setsOfType_weighted_unit_lengths` on a
two-entry sequence with unit lengths. -/
theorem setsOfType_weighted_unit_lengths_witness :
    setsOfType [teFix 1 1 (("[0, 4, 7]").data), teFix 2 1 (("[0, 3, 7]").data)]
        (("[0, 4, 7]").data) true =
      setsOfType [teFix 1 1 (("[0, 4, 7]").data), teFix 2 1 (("[0, 3, 7]").data)]
        (("[0, 4, 7]").data) false :=
  setsOfType_weighted_unit_lengths _ _ (by decide)

/-- Mapping an effectful step that succeeds everywhere on a list. -/
theorem exceptMapM_ok_of {α β : Type} (g : α → Except PyError β) (f : α → β) :
    ∀ xs : List α, (∀ x ∈ xs, g x = .ok (f x)) → exceptMapM g xs = .ok (xs.map f) := by
  intro xs
  induction xs with
  | nil => intro _; rfl
  | cons x xs ih =>
    intro h
    have hx := h x (List.mem_cons_self x xs)
    have hrec := ih (fun y hy => h y (List.mem_cons_of_mem _ hy))
    simp [exceptMapM, hx, hrec]

/-- An effectful map fails when some element fails, and with the one error
value the step can produce. -/
theorem exceptMapM_err_of {α β : Type} (g : α → Except PyError β) (E : PyError)
    (hall : ∀ x e, g x = .error e → e = E) :
    ∀ xs : List α, (∃ x ∈ xs, isErr (g x) = true) → exceptMapM g xs = .error E := by
  intro xs
  induction xs with
  | nil => rintro ⟨x, hx, _⟩; cases hx
  | cons x xs ih =>
    rintro ⟨y, hy, hyerr⟩
    cases hgx : g x with
    | error e =>
      have hE := hall x e hgx
      subst hE
      simp [exceptMapM, hgx]
    | ok v =>
      have hy' : y ∈ xs := by
        rcases List.mem_cons.mp hy with h | h
        · subst h
          rw [hgx] at hyerr
          simp [isErr] at hyerr
        · exact h
      have hrec := ih ⟨y, hy', hyerr⟩
      simp [exceptMapM, hgx, hrec]

/-- Membership in the enumerated positions list: exactly the offsets (from
the running index) where the target sits. -/
theorem mem_positionsFrom {α : Type} [DecidableEq α] (t : α) :
    ∀ (l : List α) (i p : ℕ),
      p ∈ positionsFrom t i l ↔ ∃ j : ℕ, p = i + j ∧ l.get? j = some t := by
  intro l
  induction l with
  | nil => intro i p; simp [positionsFrom]
  | cons x xs ih =>
    intro i p
    rw [positionsFrom]
    by_cases hx : x = t
    · rw [if_pos hx]
      constructor
      · intro hp
        rcases List.mem_cons.mp hp with h | h
        · exact ⟨0, by omega, by simp [hx]⟩
        · rcases (ih (i + 1) p).mp h with ⟨j, hj1, hj2⟩
          exact ⟨j + 1, by omega, by simpa using hj2⟩
      · rintro ⟨j, hj1, hj2⟩
        cases j with
        | zero => simp [hj1]
        | succ j2 =>
          exact List.mem_cons_of_mem _
            ((ih (i + 1) p).mpr ⟨j2, by omega, by simpa using hj2⟩)
    · rw [if_neg hx]
      constructor
      · intro hp
        rcases (ih (i + 1) p).mp hp with ⟨j, hj1, hj2⟩
        exact ⟨j + 1, by omega, by simpa using hj2⟩
      · rintro ⟨j, hj1, hj2⟩
        cases j with
        | zero =>
          exfalso
          apply hx
          simpa using hj2
        | succ j2 =>
          exact (ih (i + 1) p).mpr ⟨j2, by omega, by simpa using hj2⟩

/-- C4 (amended): `followChord` records, for each position of the target
chord, the label at the following position; but when the target is the last
slice, the read `self.primes[p + 1]` raises `IndexError` instead of
skipping that occurrence. -/
theorem followChord_amended (primes : List PyStr) (t : PyStr) :
    (primes.getLast? = some t →
      followChordSuccessors primes t = .error .indexError) ∧
    (primes.getLast? ≠ some t →
      followChordSuccessors primes t =
        .ok ((positionsOf primes t).map (fun p => primes.getD (p + 1) []))) := by
  have hstep : ∀ p e,
      ((if h : p + 1 < primes.length then
          .ok (primes.get ⟨p + 1, h⟩)
        else .error .indexError) : Except PyError PyStr) = .error e →
        e = PyError.indexError := by
    intro p e h
    by_cases hlt : p + 1 < primes.length
    · rw [dif_pos hlt] at h; cases h
    · rw [dif_neg hlt] at h; cases h; rfl
  constructor
  · intro hlast
    have hne : primes ≠ [] := by
      intro hnil
      rw [hnil] at hlast
      cases hlast
    have hlen : 0 < primes.length := List.length_pos.mpr hne
    have hget : primes.get? (primes.length - 1) = some t := by
      rw [← List.getLast?_eq_get? ] at *
      · exact hlast
    have hmem : primes.length - 1 ∈ positionsOf primes t :=
      (mem_positionsFrom t primes 0 (primes.length - 1)).mpr
        ⟨primes.length - 1, by omega, hget⟩
    apply exceptMapM_err_of _ _ hstep
    refine ⟨primes.length - 1, hmem, ?_⟩
    have hnotlt : ¬(primes.length - 1 + 1 < primes.length) := by omega
    simp [isErr, hnotlt]
  · intro hlast
    apply exceptMapM_ok_of
    intro p hp
    rcases (mem_positionsFrom t primes 0 p).mp hp with ⟨j, hj1, hj2⟩
    have hpj : p = j := by omega
    subst hpj
    have hplt : p < primes.length := (List.get?_eq_some.mp hj2).1
    have hpne : p ≠ primes.length - 1 := by
      intro hpeq
      apply hlast
      rw [List.getLast?_eq_get?, ← hpeq]
      exact hj2
    have hlt : p + 1 < primes.length := by omega
    rw [dif_pos hlt]
    congr 1
    rw [List.getD_eq_get?, List.get?_eq_get hlt]
    rfl

/-- Closed instantiation of the raising branch of `followChord_amended`:
the target occurs (only) at the final position. -/
theorem followChord_amended_witness :
    followChordSuccessors [("[0, 3, 7]").data, ("[0, 4, 8]").data]
        (("[0, 4, 8]").data) = .error .indexError :=
  (followChord_amended [("[0, 3, 7]").data, ("[0, 4, 8]").data]
      (("[0, 4, 8]").data)).1 (by decide)

/-- C4 (counterexample to the claim as stated): a sequence whose final label
is the target makes `followChord` raise `IndexError` — the final occurrence
is not skipped. -/
theorem followChord_last_raises :
    followChordSuccessors [("[0, 3, 6]").data, ("[0, 3, 7]").data, ("[0, 3, 6]").data]
        (("[0, 3, 6]").data) = .error .indexError := by
  decide

/-- Membership in the deduplication worker's output. -/
theorem mem_dkfGo {α : Type} [DecidableEq α] :
    ∀ (l seen : List α) (a : α), a ∈ dkfGo seen l ↔ a ∈ l ∧ a ∉ seen := by
  intro l
  induction l with
  | nil => intro seen a; simp [dkfGo]
  | cons x xs ih =>
    intro seen a
    rw [dkfGo]
    by_cases hx : x ∈ seen
    · rw [if_pos hx, ih]
      constructor
      · rintro ⟨h1, h2⟩
        exact ⟨List.mem_cons_of_mem _ h1, h2⟩
      · rintro ⟨h1, h2⟩
        rcases List.mem_cons.mp h1 with h | h
        · subst h; exact absurd hx h2
        · exact ⟨h, h2⟩
    · rw [if_neg hx]
      constructor
      · intro hmem
        rcases List.mem_cons.mp hmem with h | h
        · subst h; exact ⟨List.mem_cons_self _ _, hx⟩
        · rcases (ih (x :: seen) a).mp h with ⟨h1, h2⟩
          exact ⟨List.mem_cons_of_mem _ h1, fun hs => h2 (List.mem_cons_of_mem _ hs)⟩
      · rintro ⟨h1, h2⟩
        rcases List.mem_cons.mp h1 with h | h
        · subst h; exact List.mem_cons_self _ _
        · by_cases hax : a = x
          · subst hax; exact List.mem_cons_self _ _
          · exact List.mem_cons_of_mem _
              ((ih (x :: seen) a).mpr ⟨h, by simp [hax, h2]⟩)

/-- The deduplication worker returns a list without duplicates. -/
theorem nodup_dkfGo {α : Type} [DecidableEq α] :
    ∀ (l seen : List α), (dkfGo seen l).Nodup := by
  intro l
  induction l with
  | nil => intro seen; simp [dkfGo]
  | cons x xs ih =>
    intro seen
    rw [dkfGo]
    by_cases hx : x ∈ seen
    · rw [if_pos hx]; exact ih seen
    · rw [if_neg hx]
      refine List.Nodup.cons ?_ (ih (x :: seen))
      intro hmem
      exact ((mem_dkfGo xs (x :: seen) x).mp hmem).2 (List.mem_cons_self _ _)

/-- Unfolding `firstIdx` on a head that is not the sought element. -/
theorem firstIdx_cons_ne {α : Type} [DecidableEq α] (x : α) (xs : List α) (a : α)
    (h : x ≠ a) : firstIdx (x :: xs) a = firstIdx xs a + 1 := by
  rw [firstIdx, if_neg h]

/-- The deduplicated list is ordered by first occurrence in the source
list: indices of first occurrences are strictly increasing along it. -/
theorem pairwise_firstIdx_dkfGo {α : Type} [DecidableEq α] :
    ∀ (l seen : List α),
      List.Pairwise (fun a b => firstIdx l a < firstIdx l b) (dkfGo seen l) := by
  intro l
  induction l with
  | nil => intro seen; simp [dkfGo]
  | cons x xs ih =>
    intro seen
    rw [dkfGo]
    by_cases hx : x ∈ seen
    · rw [if_pos hx]
      refine (ih seen).imp_of_mem ?_
      intro a b ha hb hab
      have ha' := (mem_dkfGo xs seen a).mp ha
      have hb' := (mem_dkfGo xs seen b).mp hb
      have hax : x ≠ a := fun h => ha'.2 (h ▸ hx)
      have hbx : x ≠ b := fun h => hb'.2 (h ▸ hx)
      rw [firstIdx_cons_ne x xs a hax, firstIdx_cons_ne x xs b hbx]
      omega
    · rw [if_neg hx]
      refine List.Pairwise.cons ?_ ?_
      · intro b hb
        have hb' := (mem_dkfGo xs (x :: seen) b).mp hb
        have hbx : x ≠ b := fun h => hb'.2 (h ▸ List.mem_cons_self x seen)
        rw [firstIdx, if_pos rfl, firstIdx_cons_ne x xs b hbx]
        omega
      · refine (ih (x :: seen)).imp_of_mem ?_
        intro a b ha hb hab
        have ha' := (mem_dkfGo xs (x :: seen) a).mp ha
        have hb' := (mem_dkfGo xs (x :: seen) b).mp hb
        have hax : x ≠ a := fun h => ha'.2 (h ▸ List.mem_cons_self x seen)
        have hbx : x ≠ b := fun h => hb'.2 (h ▸ List.mem_cons_self x seen)
        rw [firstIdx_cons_ne x xs a hax, firstIdx_cons_ne x xs b hbx]
        omega

/-- The second component of the scanning fold of `setsOfType`: the measures
already collected followed by the matching measures in encounter order. -/
theorem setsFold_snd (t : PyStr) (wtd : Bool) :
    ∀ (l : List TableEntry) (c : ℚ) (ms : List ℤ),
      (l.foldl
        (fun acc entry =>
          if entry.primeForm = t then
            ((acc.1 + if wtd then entry.length else 1), acc.2 ++ [entry.measure])
          else acc)
        (c, ms)).2 = ms ++ setsMeasures l t := by
  intro l
  induction l with
  | nil => intro c ms; simp [setsMeasures]
  | cons e es ih =>
    intro c ms
    rw [List.foldl_cons]
    by_cases he : e.primeForm = t
    · rw [if_pos he]
      rw [ih]
      simp [setsMeasures, List.filter_cons, he]
    · rw [if_neg he]
      rw [ih]
      simp [setsMeasures, List.filter_cons, he]

/-- The second component of the scanning fold of `intervalsOfType` before
deduplication. -/
theorem intervalsFold_snd (q : List PyStr) (wtd : Bool) :
    ∀ (l : List TableEntry) (c : ℚ) (ms : List ℤ),
      (l.foldl
        (fun acc entry =>
          if (q.filter (fun i => i ∈ entry.intervals)) ≠ [] then
            ((acc.1 + if wtd then entry.length else 1), acc.2 ++ [entry.measure])
          else acc)
        (c, ms)).2 = ms ++ intervalsMeasures l q := by
  intro l
  induction l with
  | nil => intro c ms; simp [intervalsMeasures]
  | cons e es ih =>
    intro c ms
    rw [List.foldl_cons]
    by_cases hex : ∃ x ∈ q, x ∈ e.intervals
    · have he : (q.filter (fun i => i ∈ e.intervals)) ≠ [] := by
        rcases hex with ⟨x, hxq, hxe⟩
        intro hnil
        have hxin : x ∈ q.filter (fun i => i ∈ e.intervals) := by
          rw [List.mem_filter]
          exact ⟨hxq, by simpa using hxe⟩
        rw [hnil] at hxin
        cases hxin
      rw [if_pos he, ih]
      simp [intervalsMeasures, List.filter_cons, hex]
    · have he : ¬((q.filter (fun i => i ∈ e.intervals)) ≠ []) := by
        rw [ne_eq, not_not, List.filter_eq_nil_iff]
        intro a ha
        simp only [decide_eq_true_eq]
        intro hae
        exact hex ⟨a, ha, hae⟩
      rw [if_neg he, ih]
      simp [intervalsMeasures, List.filter_cons, hex]

/-- C7: the measure list of `intervalsOfType` is the deduplication of the
matching measures — it lists each matching measure exactly once, without
duplicates, ordered by first occurrence among matching entries — whereas
`setsOfType` returns the possibly repeated matching measures in encounter
order. -/
theorem measures_dedup_spec (data : List TableEntry) (q : List PyStr) (t : PyStr) :
    (setsOfType data t false).2 = setsMeasures data t ∧
    (intervalsOfType data q false).2 = dedupKeepFirst (intervalsMeasures data q) ∧
    (intervalsOfType data q false).2.Nodup ∧
    (∀ m : ℤ, m ∈ (intervalsOfType data q false).2 ↔ m ∈ intervalsMeasures data q) ∧
    List.Pairwise
      (fun a b => firstIdx (intervalsMeasures data q) a <
        firstIdx (intervalsMeasures data q) b)
      (intervalsOfType data q false).2 := by
  have h1 : (setsOfType data t false).2 = setsMeasures data t := by
    rw [setsOfType]
    exact setsFold_snd t false data 0 []
  have h2 : (intervalsOfType data q false).2 =
      dedupKeepFirst (intervalsMeasures data q) := by
    rw [intervalsOfType]
    rw [show ∀ r : ℚ × List ℤ, (pyRound 3 r.1, dedupKeepFirst r.2).2 =
        dedupKeepFirst r.2 from fun r => rfl]
    rw [intervalsFold_snd q false data 0 []]
    rfl
  refine ⟨h1, h2, ?_, ?_, ?_⟩
  · rw [h2]
    exact nodup_dkfGo _ _
  · intro m
    rw [h2, dedupKeepFirst, mem_dkfGo]
    simp
  · rw [h2]
    exact pairwise_firstIdx_dkfGo _ _

/-- Digit characters decode to the digit they encode. -/
theorem digVal_digCh (d : ℕ) (h : d < 10) : digVal (digCh d) = d := by
  interval_cases d <;> decide

/-- Digit characters are digit characters. -/
theorem isDigit_digCh (d : ℕ) (h : d < 10) : (digCh d).isDigit = true := by
  interval_cases d <;> decide

/-- Folding the digit accumulator from an arbitrary start. -/
theorem valDigits_foldl_init (b : PyStr) :
    ∀ z : ℕ, b.foldl (fun a c => 10 * a + digVal c) z =
      z * 10 ^ b.length + valDigits b := by
  induction b with
  | nil => intro z; simp [valDigits]
  | cons c cs ih =>
    intro z
    rw [List.foldl_cons]
    rw [ih (10 * z + digVal c)]
    rw [show valDigits (c :: cs) = cs.foldl (fun a c => 10 * a + digVal c) (digVal c) by
      simp [valDigits]]
    rw [ih (digVal c)]
    simp [List.length_cons]
    ring

/-- Digit-string values compose over append. -/
theorem valDigits_append (a b : PyStr) :
    valDigits (a ++ b) = valDigits a * 10 ^ b.length + valDigits b := by
  rw [valDigits, List.foldl_append, valDigits_foldl_init]
  rfl

/-- Leading zeros do not change a digit string's value. -/
theorem valDigits_replicate_zero (z : ℕ) (s : PyStr) :
    valDigits (List.replicate z '0' ++ s) = valDigits s := by
  rw [valDigits_append]
  have : valDigits (List.replicate z '0') = 0 := by
    induction z with
    | zero => rfl
    | succ n ih =>
      rw [List.replicate_succ]
      have : valDigits ('0' :: List.replicate n '0') =
          (List.replicate n '0').foldl (fun a c => 10 * a + digVal c) 0 := by
        simp [valDigits, digVal]
      rw [this, ← valDigits, ih]
  rw [this]
  simp

/-- Every digit the fuelled expansion emits is below ten. -/
theorem digitsFuel_lt_ten : ∀ (fuel n : ℕ), ∀ d ∈ digitsFuel fuel n, d < 10 := by
  intro fuel
  induction fuel with
  | zero => intro n d hd; cases hd
  | succ f ih =>
    intro n d hd
    rw [digitsFuel] at hd
    by_cases h0 : n = 0
    · rw [if_pos h0] at hd; cases hd
    · rw [if_neg h0] at hd
      rcases List.mem_cons.mp hd with h | h
      · subst h; exact Nat.mod_lt n (by norm_num)
      · exact ih (n / 10) d h

/-- The fuelled digit expansion re-evaluates to its input. -/
theorem valDigits_digitsFuel : ∀ (fuel n : ℕ), n ≤ fuel →
    valDigits ((digitsFuel fuel n).reverse.map digCh) = n := by
  intro fuel
  induction fuel with
  | zero =>
    intro n h
    have : n = 0 := Nat.le_zero.mp h
    subst this
    rfl
  | succ f ih =>
    intro n h
    rw [digitsFuel]
    by_cases h0 : n = 0
    · rw [if_pos h0, h0]; rfl
    · rw [if_neg h0]
      rw [List.reverse_cons, List.map_append]
      rw [valDigits_append]
      have hdiv : n / 10 ≤ f := by
        have := Nat.div_lt_self (Nat.pos_of_ne_zero h0) (by norm_num : (1:ℕ) < 10)
        omega
      rw [ih (n / 10) hdiv]
      have : valDigits (List.map digCh [n % 10]) = n % 10 := by
        simp [valDigits, List.foldl]
        exact digVal_digCh _ (Nat.mod_lt n (by norm_num))
      rw [show List.map digCh [n % 10] = [digCh (n % 10)] from rfl]
      have hval1 : valDigits [digCh (n % 10)] = n % 10 := by
        simp [valDigits, List.foldl]
        exact digVal_digCh _ (Nat.mod_lt n (by norm_num))
      rw [hval1]
      simp
      omega

/-- `natChars` re-evaluates to its input. -/
theorem valDigits_natChars (n : ℕ) : valDigits (natChars n) = n := by
  rw [natChars]
  by_cases h0 : n = 0
  · rw [if_pos h0, h0]; rfl
  · rw [if_neg h0]
    exact valDigits_digitsFuel n n le_rfl

/-- Every character of `natChars` is a digit. -/
theorem natChars_all_digits (n : ℕ) : ∀ c ∈ natChars n, c.isDigit = true := by
  intro c hc
  rw [natChars] at hc
  by_cases h0 : n = 0
  · rw [if_pos h0] at hc
    rcases List.mem_singleton.mp hc with h
    subst h; decide
  · rw [if_neg h0] at hc
    rw [List.mem_map] at hc
    rcases hc with ⟨d, hd, hdc⟩
    rw [List.mem_reverse] at hd
    rw [← hdc]
    exact isDigit_digCh d (digitsFuel_lt_ten n n d hd)

/-- `natChars` is never empty. -/
theorem natChars_ne_nil (n : ℕ) : natChars n ≠ [] := by
  rw [natChars]
  by_cases h0 : n = 0
  · rw [if_pos h0]; simp
  · rw [if_neg h0]
    cases hn : n with
    | zero => exact absurd hn h0
    | succ m =>
      rw [digitsFuel, if_neg (by omega : m + 1 ≠ 0)]
      simp

/-- The digit parser re-evaluates `natChars`. -/
theorem pyParseNatDigits_natChars (n : ℕ) :
    pyParseNatDigits (natChars n) = some n := by
  have hall : (natChars n).all Char.isDigit = true := by
    rw [List.all_eq_true]
    exact natChars_all_digits n
  rw [pyParseNatDigits, if_pos ⟨natChars_ne_nil n, hall⟩, valDigits_natChars]

/-- A digit character is none of the delimiter/marker characters the
serialised format gives a special meaning. -/
theorem digit_char_props (c : Char) (h : c.isDigit = true) :
    c ≠ tabCh ∧ c ≠ quoteCh ∧ c ≠ crCh ∧ c ≠ nlCh ∧ c ≠ aposCh ∧
    c ≠ '/' ∧ c ≠ '+' ∧ c ≠ '-' ∧ c ≠ '.' ∧ isSpaceCh c = false := by
  refine ⟨?_, ?_, ?_, ?_, ?_, ?_, ?_, ?_, ?_, ?_⟩
  · intro he; rw [he] at h; exact absurd h (by decide)
  · intro he; rw [he] at h; exact absurd h (by decide)
  · intro he; rw [he] at h; exact absurd h (by decide)
  · intro he; rw [he] at h; exact absurd h (by decide)
  · intro he; rw [he] at h; exact absurd h (by decide)
  · intro he; rw [he] at h; exact absurd h (by decide)
  · intro he; rw [he] at h; exact absurd h (by decide)
  · intro he; rw [he] at h; exact absurd h (by decide)
  · intro he; rw [he] at h; exact absurd h (by decide)
  · by_contra hsp
    have hsp' : isSpaceCh c = true := by
      revert hsp; cases isSpaceCh c <;> simp
    have hcase : c = ' ' ∨ c = tabCh ∨ c = nlCh ∨ c = crCh := by
      rw [isSpaceCh] at hsp'
      simp only [Bool.or_eq_true, beq_iff_eq] at hsp'
      tauto
    rcases hcase with h1 | h1 | h1 | h1 <;>
      (rw [h1] at h; exact absurd h (by decide))

/-- Dropping while a predicate fails everywhere drops nothing. -/
theorem dropWhile_eq_self_of {p : Char → Bool} (l : PyStr)
    (h : ∀ c ∈ l, p c = false) : l.dropWhile p = l := by
  cases l with
  | nil => rfl
  | cons c r =>
    rw [List.dropWhile_cons]
    simp [h c (List.mem_cons_self c r)]

/-- Trimming a literal with no whitespace characters is the identity. -/
theorem trimWS_eq_self (s : PyStr) (h : ∀ c ∈ s, isSpaceCh c = false) :
    trimWS s = s := by
  rw [trimWS]
  rw [dropWhile_eq_self_of s h]
  rw [dropWhile_eq_self_of s.reverse (fun c hc => h c (List.mem_reverse.mp hc))]
  exact List.reverse_reverse s

/-- A literal starting with a digit carries no sign. -/
theorem stripSign_digit (c : Char) (r : PyStr) (h : c.isDigit = true) :
    stripSign (c :: r) = (false, c :: r) := by
  have hp := digit_char_props c h
  rw [stripSign]
  rw [if_neg hp.2.2.2.2.2.2.1, if_neg hp.2.2.2.2.2.2.2.1]

/-- Taking while a predicate holds of a whole leading block passes it. -/
theorem takeWhile_append_all {p : Char → Bool} :
    ∀ (A B : PyStr), (∀ c ∈ A, p c = true) →
      (A ++ B).takeWhile p = A ++ B.takeWhile p := by
  intro A
  induction A with
  | nil => intro B _; simp
  | cons a A' ih =>
    intro B h
    rw [List.cons_append, List.takeWhile_cons]
    simp only [h a (List.mem_cons_self a A')]
    rw [ih B (fun c hc => h c (List.mem_cons_of_mem _ hc))]
    rfl

/-- Dropping while a predicate holds of a whole leading block removes it. -/
theorem dropWhile_append_all {p : Char → Bool} :
    ∀ (A B : PyStr), (∀ c ∈ A, p c = true) →
      (A ++ B).dropWhile p = B.dropWhile p := by
  intro A
  induction A with
  | nil => intro B _; simp
  | cons a A' ih =>
    intro B h
    rw [List.cons_append, List.dropWhile_cons]
    simp only [h a (List.mem_cons_self a A')]
    exact ih B (fun c hc => h c (List.mem_cons_of_mem _ hc))

/-- `int()` re-evaluates the decimal form of an integer. -/
theorem pyParseInt_intChars (i : ℤ) : pyParseInt (intChars i) = .ok i := by
  have hdig := natChars_all_digits i.natAbs
  by_cases hneg : i < 0
  · rw [intChars, if_pos hneg]
    simp only [List.singleton_append]
    have htrim : trimWS ('-' :: natChars i.natAbs) = '-' :: natChars i.natAbs := by
      apply trimWS_eq_self
      intro c hc
      rcases List.mem_cons.mp hc with h | h
      · rw [h]; decide
      · exact (digit_char_props c (hdig c h)).2.2.2.2.2.2.2.2.2
    rw [pyParseInt]
    simp only [htrim]
    rw [show stripSign ('-' :: natChars i.natAbs) = (true, natChars i.natAbs) by
      rw [stripSign]
      rw [if_neg (by decide), if_pos rfl]]
    simp only [pyParseNatDigits_natChars]
    show Except.ok (if true then -((i.natAbs : ℕ) : ℤ) else ((i.natAbs : ℕ) : ℤ)) =
      Except.ok i
    rw [if_pos rfl]
    rw [show -((i.natAbs : ℕ) : ℤ) = i by omega]
  · rw [intChars, if_neg hneg]
    simp only [List.nil_append]
    have hsp : ∀ c ∈ natChars i.natAbs, isSpaceCh c = false := by
      intro c hc
      exact (digit_char_props c (hdig c hc)).2.2.2.2.2.2.2.2.2
    rw [pyParseInt]
    simp only [trimWS_eq_self _ hsp]
    cases hnc : natChars i.natAbs with
    | nil => exact absurd hnc (natChars_ne_nil _)
    | cons c r =>
      rw [stripSign_digit c r (hdig c (by rw [hnc]; exact List.mem_cons_self c r))]
      rw [← hnc]
      simp only [pyParseNatDigits_natChars]
      show Except.ok (if false then -((i.natAbs : ℕ) : ℤ) else ((i.natAbs : ℕ) : ℤ)) =
        Except.ok i
      rw [if_neg (by decide)]
      rw [show ((i.natAbs : ℕ) : ℤ) = i by omega]

/-- `float()` re-evaluates the decimal form of an integer. -/
theorem pyParseFloat_intChars (i : ℤ) : pyParseFloat (intChars i) = .ok (i : ℚ) := by
  have hdig := natChars_all_digits i.natAbs
  have htake : (natChars i.natAbs).takeWhile Char.isDigit = natChars i.natAbs := by
    have := takeWhile_append_all (natChars i.natAbs) [] hdig
    simpa using this
  have hdrop : (natChars i.natAbs).dropWhile Char.isDigit = [] := by
    have := dropWhile_append_all (natChars i.natAbs) [] hdig
    simpa using this
  by_cases hneg : i < 0
  · rw [intChars, if_pos hneg]
    simp only [List.singleton_append]
    have htrim : trimWS ('-' :: natChars i.natAbs) = '-' :: natChars i.natAbs := by
      apply trimWS_eq_self
      intro c hc
      rcases List.mem_cons.mp hc with h | h
      · rw [h]; decide
      · exact (digit_char_props c (hdig c h)).2.2.2.2.2.2.2.2.2
    rw [pyParseFloat]
    simp only [htrim]
    rw [show stripSign ('-' :: natChars i.natAbs) = (true, natChars i.natAbs) by
      rw [stripSign]
      rw [if_neg (by decide), if_pos rfl]]
    simp only [htake, hdrop]
    rw [if_neg (by simp [natChars_ne_nil i.natAbs] : ¬natChars i.natAbs = [])]
    simp only [valDigits_natChars]
    show Except.ok (if true then -((i.natAbs : ℕ) : ℚ) else ((i.natAbs : ℕ) : ℚ)) =
      Except.ok (i : ℚ)
    rw [if_pos rfl]
    have h1 : ((i.natAbs : ℕ) : ℚ) = (((i.natAbs : ℤ)) : ℚ) :=
      (Int.cast_natCast i.natAbs).symm
    have h2 : (i.natAbs : ℤ) = -i := by omega
    rw [h1, h2]
    push_cast
    ring_nf
  · rw [intChars, if_neg hneg]
    simp only [List.nil_append]
    have hsp : ∀ c ∈ natChars i.natAbs, isSpaceCh c = false := by
      intro c hc
      exact (digit_char_props c (hdig c hc)).2.2.2.2.2.2.2.2.2
    rw [pyParseFloat]
    simp only [trimWS_eq_self _ hsp]
    cases hnc : natChars i.natAbs with
    | nil => exact absurd hnc (natChars_ne_nil _)
    | cons c r =>
      rw [stripSign_digit c r (hdig c (by rw [hnc]; exact List.mem_cons_self c r))]
      rw [← hnc]
      simp only [htake, hdrop]
      rw [if_neg (by simp [natChars_ne_nil i.natAbs] : ¬natChars i.natAbs = [])]
      simp only [valDigits_natChars]
      show Except.ok (if false then -((i.natAbs : ℕ) : ℚ) else ((i.natAbs : ℕ) : ℚ)) =
        Except.ok (i : ℚ)
      rw [if_neg (by decide)]
      have h1 : ((i.natAbs : ℕ) : ℚ) = (((i.natAbs : ℤ)) : ℚ) :=
        (Int.cast_natCast i.natAbs).symm
      have h2 : (i.natAbs : ℤ) = i := by omega
      rw [h1, h2]

/-- The printed form of `n / 10^k`, unfolded. -/
theorem decimalOfScaled_eq (m : ℤ) (k : ℕ) :
    decimalOfScaled m k =
      (if m < 0 then ['-'] else []) ++
        ((padZeros (k + 1) (natChars m.natAbs)).take
            ((padZeros (k + 1) (natChars m.natAbs)).length - k) ++
          '.' :: (if k = 0 then ['0']
            else (padZeros (k + 1) (natChars m.natAbs)).drop
              ((padZeros (k + 1) (natChars m.natAbs)).length - k))) := by
  rw [decimalOfScaled]
  simp [List.append_assoc]

/-- `float()` re-evaluates the printed decimal form of `m / 10^k`. -/
theorem pyParseFloat_decimalOfScaled (m : ℤ) (k : ℕ) :
    pyParseFloat (decimalOfScaled m k) = .ok ((m : ℚ) / 10 ^ k) := by
  have hsd : ∀ c ∈ padZeros (k + 1) (natChars m.natAbs), c.isDigit = true := by
    intro c hc
    rw [padZeros] at hc
    rcases List.mem_append.mp hc with h | h
    · rw [List.eq_of_mem_replicate h]; decide
    · exact natChars_all_digits _ c h
  set S : PyStr := padZeros (k + 1) (natChars m.natAbs) with hS
  have hSlen : k + 1 ≤ S.length := by
    rw [hS, padZeros, List.length_append, List.length_replicate]
    omega
  set IP : PyStr := S.take (S.length - k) with hIP
  set FP : PyStr := S.drop (S.length - k) with hFP
  have hIPd : ∀ c ∈ IP, c.isDigit = true := fun c hc => hsd c (List.mem_of_mem_take hc)
  have hFPd : ∀ c ∈ FP, c.isDigit = true := fun c hc => hsd c (List.mem_of_mem_drop hc)
  have hIPlen : IP.length = S.length - k := by
    rw [hIP, List.length_take]
    omega
  have hIPne : IP ≠ [] := by
    intro h
    have := congrArg List.length h
    rw [hIPlen] at this
    simp at this
    omega
  have hFPlen : FP.length = k := by
    rw [hFP, List.length_drop]
    omega
  have happ : IP ++ FP = S := List.take_append_drop _ _
  have hvalS : valDigits S = m.natAbs := by
    rw [hS, padZeros, valDigits_replicate_zero, valDigits_natChars]
  set FPP : PyStr := (if k = 0 then ['0'] else FP) with hFPP
  have hFPPd : ∀ c ∈ FPP, c.isDigit = true := by
    rw [hFPP]
    by_cases h0 : k = 0
    · rw [if_pos h0]
      intro c hc
      rw [List.mem_singleton.mp hc]
      decide
    · rw [if_neg h0]
      exact hFPd
  have hmag : (valDigits IP : ℚ) + (valDigits FPP : ℚ) / 10 ^ FPP.length
      = (m.natAbs : ℚ) / 10 ^ k := by
    by_cases h0 : k = 0
    · have hIPS : IP = S := by
        rw [hIP, h0, Nat.sub_zero, List.take_length]
      have hFPP0 : FPP = ['0'] := by rw [hFPP, if_pos h0]
      rw [hFPP0, hIPS, hvalS, h0]
      rw [show valDigits ['0'] = 0 from rfl]
      norm_num
    · have hFPPF : FPP = FP := by rw [hFPP, if_neg h0]
      have hsum : valDigits IP * 10 ^ k + valDigits FP = m.natAbs := by
        have := valDigits_append IP FP
        rw [happ, hvalS, hFPlen] at this
        omega
      rw [hFPPF, hFPlen]
      have h10 : ((10 : ℚ) ^ k) ≠ 0 := by positivity
      field_simp
      have := congrArg (fun z : ℕ => (z : ℚ)) hsum
      push_cast at this
      linarith [this]
  have htakeIP : (IP ++ '.' :: FPP).takeWhile Char.isDigit = IP := by
    rw [takeWhile_append_all IP ('.' :: FPP) hIPd]
    rw [List.takeWhile_cons, if_neg (by decide)]
    simp
  have hdropIP : (IP ++ '.' :: FPP).dropWhile Char.isDigit = '.' :: FPP := by
    rw [dropWhile_append_all IP ('.' :: FPP) hIPd]
    rw [List.dropWhile_cons, if_neg (by decide)]
  have htakeFPP : FPP.takeWhile Char.isDigit = FPP := by
    have := takeWhile_append_all FPP [] hFPPd
    simpa using this
  have hdropFPP : FPP.dropWhile Char.isDigit = [] := by
    have := dropWhile_append_all FPP [] hFPPd
    simpa using this
  have hspBody : ∀ c ∈ IP ++ '.' :: FPP, isSpaceCh c = false := by
    intro c hc
    rcases List.mem_append.mp hc with h | h
    · exact (digit_char_props c (hIPd c h)).2.2.2.2.2.2.2.2.2
    · rcases List.mem_cons.mp h with h | h
      · rw [h]; decide
      · exact (digit_char_props c (hFPPd c h)).2.2.2.2.2.2.2.2.2
  by_cases hm : m < 0
  · have hform : decimalOfScaled m k = '-' :: (IP ++ '.' :: FPP) := by
      rw [decimalOfScaled_eq, if_pos hm, ← hS, ← hIP, ← hFP, ← hFPP]
      rfl
    rw [hform]
    have htrim : trimWS ('-' :: (IP ++ '.' :: FPP)) = '-' :: (IP ++ '.' :: FPP) := by
      apply trimWS_eq_self
      intro c hc
      rcases List.mem_cons.mp hc with h | h
      · rw [h]; decide
      · exact hspBody c h
    have hstrip : stripSign ('-' :: (IP ++ '.' :: FPP)) = (true, IP ++ '.' :: FPP) := by
      rw [stripSign, if_neg (by decide), if_pos rfl]
    rw [pyParseFloat]
    simp only [htrim, hstrip, htakeIP, hdropIP]
    rw [if_pos trivial]
    simp only [htakeFPP, hdropFPP]
    rw [if_neg (by simp [hIPne])]
    rw [show expPartVal [] = some 0 from rfl]
    simp only [hmag]
    rw [if_pos trivial]
    have hcast : -((m.natAbs : ℕ) : ℚ) = (m : ℚ) := by
      have h1 : ((m.natAbs : ℕ) : ℚ) = (((m.natAbs : ℤ)) : ℚ) :=
        (Int.cast_natCast m.natAbs).symm
      have h2 : (m.natAbs : ℤ) = -m := by omega
      rw [h1, h2]
      push_cast
      ring
    rw [show ((10 : ℚ) ^ (0 : ℤ)) = 1 from zpow_zero 10]
    rw [show (-1 : ℚ) * ((m.natAbs : ℚ) / 10 ^ k) * 1 = (-((m.natAbs : ℕ) : ℚ)) / 10 ^ k by
      ring]
    rw [hcast]
  · have hform : decimalOfScaled m k = IP ++ '.' :: FPP := by
      rw [decimalOfScaled_eq, if_neg hm, ← hS, ← hIP, ← hFP, ← hFPP]
      rfl
    rw [hform]
    have htrim : trimWS (IP ++ '.' :: FPP) = IP ++ '.' :: FPP :=
      trimWS_eq_self _ hspBody
    obtain ⟨c0, IPr, hIPc⟩ : ∃ c0 IPr, IP = c0 :: IPr := by
      cases hfrom : IP with
      | nil => exact absurd hfrom hIPne
      | cons a b => exact ⟨a, b, rfl⟩
    have hstrip : stripSign (IP ++ '.' :: FPP) = (false, IP ++ '.' :: FPP) := by
      rw [hIPc, List.cons_append]
      exact stripSign_digit c0 _ (hIPd c0 (by rw [hIPc]; exact List.mem_cons_self _ _))
    rw [pyParseFloat]
    simp only [htrim, hstrip, htakeIP, hdropIP]
    rw [if_pos trivial]
    simp only [htakeFPP, hdropFPP]
    rw [if_neg (by simp [hIPne])]
    rw [show expPartVal [] = some 0 from rfl]
    simp only [hmag]
    rw [if_neg (show ¬(false = true) from by decide)]
    have hcast : ((m.natAbs : ℕ) : ℚ) = (m : ℚ) := by
      have h1 : ((m.natAbs : ℕ) : ℚ) = (((m.natAbs : ℤ)) : ℚ) :=
        (Int.cast_natCast m.natAbs).symm
      have h2 : (m.natAbs : ℤ) = m := by omega
      rw [h1, h2]
    rw [show ((10 : ℚ) ^ (0 : ℤ)) = 1 from zpow_zero 10]
    rw [show (1 : ℚ) * ((m.natAbs : ℚ) / 10 ^ k) * 1 = (((m.natAbs : ℕ) : ℚ)) / 10 ^ k by
      ring]
    rw [hcast]

/-- A string is a Boolean prefix of itself followed by anything. -/
theorem isPrefixOf_append_self (a b : PyStr) : a.isPrefixOf (a ++ b) = true := by
  rw [List.isPrefixOf_iff_prefix]
  exact List.prefix_append a b

/-- A string starting with a different character is not a Boolean prefix. -/
theorem isPrefixOf_cons_ne (c0 a : Char) (sep' t : PyStr) (h : c0 ≠ a) :
    (c0 :: sep').isPrefixOf (a :: t) = false := by
  cases hb : (c0 :: sep').isPrefixOf (a :: t) with
  | false => rfl
  | true =>
    exfalso
    rw [List.isPrefixOf_iff_prefix] at hb
    exact h (List.cons_prefix_cons.mp hb).1

/-- The fuelled splitter is fuel-insensitive above the string's length. -/
theorem splitSubF_congr (c0 : Char) (sep' : PyStr) :
    ∀ (f1 f2 : ℕ) (s : PyStr), s.length ≤ f1 → s.length ≤ f2 →
      splitSubF (c0 :: sep') f1 s = splitSubF (c0 :: sep') f2 s := by
  intro f1
  induction f1 with
  | zero =>
    intro f2 s h1 _
    have hs : s = [] := List.length_eq_zero.mp (Nat.le_zero.mp h1)
    subst hs
    cases f2 with
    | zero => rfl
    | succ g => rfl
  | succ f ihf =>
    intro f2 s h1 h2
    cases s with
    | nil => cases f2 with
      | zero => rfl
      | succ g => rfl
    | cons c rest =>
      cases f2 with
      | zero => simp at h2
      | succ g =>
        simp only [splitSubF]
        by_cases hp : (c0 :: sep').isPrefixOf (c :: rest) = true
        · rw [if_pos hp, if_pos hp]
          congr 1
          apply ihf
          · rw [List.length_drop]
            simp only [List.length_cons] at h1 ⊢
            omega
          · rw [List.length_drop]
            simp only [List.length_cons] at h2 ⊢
            omega
        · rw [if_neg hp, if_neg hp]
          congr 1
          apply ihf
          · simp only [List.length_cons] at h1; omega
          · simp only [List.length_cons] at h2; omega

/-- A string free of the separator's first character does not split. -/
theorem splitSubF_no_sep (c0 : Char) (sep' : PyStr) :
    ∀ (fuel : ℕ) (s : PyStr), s.length ≤ fuel → c0 ∉ s →
      splitSubF (c0 :: sep') fuel s = [s] := by
  intro fuel
  induction fuel with
  | zero =>
    intro s h1 _
    rfl
  | succ f ih =>
    intro s h1 h2
    cases s with
    | nil => rfl
    | cons c rest =>
      have hc : c0 ≠ c := fun he => h2 (he ▸ List.mem_cons_self c rest)
      have hp : (c0 :: sep').isPrefixOf (c :: rest) = false :=
        isPrefixOf_cons_ne c0 c sep' rest hc
      simp only [splitSubF, hp]
      rw [if_neg (by simp)]
      rw [ih rest (by simp only [List.length_cons] at h1; omega)
        (fun hm => h2 (List.mem_cons_of_mem _ hm))]
      rfl

/-- `splitSub` on a string free of the separator's first character. -/
theorem splitSub_no_sep (c0 : Char) (sep' : PyStr) (s : PyStr) (h : c0 ∉ s) :
    splitSub (c0 :: sep') s = [s] :=
  splitSubF_no_sep c0 sep' s.length s le_rfl h

/-- Splitting a string that opens with a clean piece, the separator, and a
remainder: the piece comes off and the remainder splits on its own. -/
theorem splitSub_sep_append (c0 : Char) (sep' : PyStr) :
    ∀ (p rest : PyStr), c0 ∉ p →
      splitSub (c0 :: sep') (p ++ (c0 :: sep') ++ rest) =
        p :: splitSub (c0 :: sep') rest := by
  have main : ∀ (p : PyStr) (fuel : ℕ) (rest : PyStr),
      (p ++ (c0 :: sep') ++ rest).length ≤ fuel → c0 ∉ p →
      splitSubF (c0 :: sep') fuel (p ++ (c0 :: sep') ++ rest) =
        p :: splitSub (c0 :: sep') rest := by
    intro p
    induction p with
    | nil =>
      intro fuel rest hf hp
      cases fuel with
      | zero => simp at hf
      | succ f =>
        simp only [List.nil_append]
        have hshape : (c0 :: sep') ++ rest = c0 :: (sep' ++ rest) := rfl
        rw [hshape]
        simp only [splitSubF]
        rw [if_pos (by rw [← hshape]; exact isPrefixOf_append_self _ _)]
        have hdrop : (c0 :: (sep' ++ rest)).drop (c0 :: sep').length = rest := by
          rw [← hshape]
          exact List.drop_left _ _
        rw [hdrop]
        congr 1
        apply splitSubF_congr
        · simp only [List.nil_append, List.cons_append, List.length_append,
            List.length_cons] at hf
          omega
        · exact le_rfl
    | cons a p' ih =>
      intro fuel rest hf hp
      cases fuel with
      | zero => simp at hf
      | succ f =>
        have hca : c0 ≠ a := fun he => hp (he ▸ List.mem_cons_self a p')
        simp only [List.cons_append, splitSubF]
        rw [if_neg (by
          rw [isPrefixOf_cons_ne c0 a sep' _ hca]
          simp)]
        rw [ih f rest
          (by simp only [List.cons_append, List.length_cons] at hf; omega)
          (fun h => hp (List.mem_cons_of_mem _ h))]
        rfl
  intro p rest hp
  exact main p _ rest le_rfl hp

/-- Character classification of a printed decimal: digits, a minus, a
point. -/
theorem decimalOfScaled_chars (m : ℤ) (k : ℕ) :
    ∀ c ∈ decimalOfScaled m k, c.isDigit = true ∨ c = '-' ∨ c = '.' := by
  intro c hc
  rw [decimalOfScaled_eq] at hc
  have hsd : ∀ x ∈ padZeros (k + 1) (natChars m.natAbs), x.isDigit = true := by
    intro x hx
    rw [padZeros] at hx
    rcases List.mem_append.mp hx with h | h
    · rw [List.eq_of_mem_replicate h]; decide
    · exact natChars_all_digits _ x h
  rcases List.mem_append.mp hc with h | h
  · by_cases hm : m < 0
    · rw [if_pos hm] at h
      right; left
      exact List.mem_singleton.mp h
    · rw [if_neg hm] at h
      cases h
  · rcases List.mem_append.mp h with h2 | h2
    · exact Or.inl (hsd c (List.mem_of_mem_take h2))
    · rcases List.mem_cons.mp h2 with h3 | h3
      · right; right; exact h3
      · by_cases h0 : k = 0
        · rw [if_pos h0] at h3
          rw [List.mem_singleton.mp h3]
          left; decide
        · rw [if_neg h0] at h3
          exact Or.inl (hsd c (List.mem_of_mem_drop h3))

/-- Character classification of a printed integer. -/
theorem intChars_chars (i : ℤ) :
    ∀ c ∈ intChars i, c.isDigit = true ∨ c = '-' := by
  intro c hc
  rw [intChars] at hc
  rcases List.mem_append.mp hc with h | h
  · by_cases hm : i < 0
    · rw [if_pos hm] at h
      right
      exact List.mem_singleton.mp h
    · rw [if_neg hm] at h
      cases h
  · exact Or.inl (natChars_all_digits _ c h)

/-- Character classification of a printed beat value. -/
theorem beatRepr_chars (b : BeatV) :
    ∀ c ∈ beatRepr b, c.isDigit = true ∨ c = '-' ∨ c = '.' ∨ c = '/' := by
  intro c hc
  cases b with
  | flt q =>
    rw [beatRepr, decimalRepr] at hc
    rcases decimalOfScaled_chars _ _ c hc with h | h | h
    · exact Or.inl h
    · exact Or.inr (Or.inl h)
    · exact Or.inr (Or.inr (Or.inl h))
  | frac q =>
    rw [beatRepr] at hc
    by_cases h1 : q.den = 1
    · rw [if_pos h1] at hc
      rcases intChars_chars _ c hc with h | h
      · exact Or.inl h
      · exact Or.inr (Or.inl h)
    · rw [if_neg h1] at hc
      rcases List.mem_append.mp hc with h | h
      · rcases intChars_chars _ c h with h2 | h2
        · exact Or.inl h2
        · exact Or.inr (Or.inl h2)
      · rcases List.mem_cons.mp h with h2 | h2
        · exact Or.inr (Or.inr (Or.inr h2))
        · exact Or.inl (natChars_all_digits _ c h2)

/-- A numeric character (digit, minus, point, slash) is none of the
delimiter characters and is not whitespace. -/
theorem numeric_char_safe (c : Char)
    (h : c.isDigit = true ∨ c = '-' ∨ c = '.' ∨ c = '/') :
    c ≠ tabCh ∧ c ≠ quoteCh ∧ c ≠ crCh ∧ c ≠ nlCh ∧ c ≠ aposCh ∧
      isSpaceCh c = false := by
  rcases h with h | h | h | h
  · have hp := digit_char_props c h
    exact ⟨hp.1, hp.2.1, hp.2.2.1, hp.2.2.2.1, hp.2.2.2.2.1, hp.2.2.2.2.2.2.2.2.2⟩
  · subst h; refine ⟨by decide, by decide, by decide, by decide, by decide, by decide⟩
  · subst h; refine ⟨by decide, by decide, by decide, by decide, by decide, by decide⟩
  · subst h; refine ⟨by decide, by decide, by decide, by decide, by decide, by decide⟩

/-- A cast integer is its own floor. -/
theorem ratFloorZ_intCast (m : ℤ) : ratFloorZ (m : ℚ) = m := by
  rw [ratFloorZ, Rat.intCast_num, Rat.intCast_den]
  simp only [Nat.cast_one]
  exact Int.ediv_one m

/-- Rounding fixes integers. -/
theorem roundHalfEven_intCast (m : ℤ) : roundHalfEven (m : ℚ) = m := by
  rw [roundHalfEven]
  simp only [ratFloorZ_intCast]
  rw [if_pos (by norm_num)]

/-- Rounding to `k` places fixes a value that is an integer multiple of
`10^(-k)`. -/
theorem pyRound_of_mul_int (k : ℕ) (q : ℚ) (m : ℤ) (h : q * 10 ^ k = (m : ℚ)) :
    pyRound k q = q := by
  rw [pyRound, h, roundHalfEven_intCast]
  rw [← h]
  have h10 : ((10 : ℚ) ^ k) ≠ 0 := by positivity
  field_simp

/-- Rounding to `k` places fixes a value whose denominator divides `10^k`. -/
theorem pyRound_den_dvd (k : ℕ) (q : ℚ) (h : q.den ∣ 10 ^ k) : pyRound k q = q := by
  obtain ⟨c, hc⟩ := h
  apply pyRound_of_mul_int k q (q.num * c)
  have hden0 : ((q.den : ℚ)) ≠ 0 := by
    have := q.pos
    positivity
  have hqnum : (q.num : ℚ) = q * q.den :=
    ((div_eq_iff hden0).mp (Rat.num_div_den q)).symm.symm
  have h10 : ((10 : ℚ) ^ k) = (q.den : ℚ) * (c : ℚ) := by
    have := congrArg (fun z : ℕ => (z : ℚ)) hc
    push_cast at this
    linarith [this]
  push_cast
  rw [h10, hqnum]
  ring

/-- A string with no slash goes to `float()` in `strToFloat`. -/
theorem strToFloat_no_slash (s : PyStr) (h : '/' ∉ s) :
    strToFloat s = pyParseFloat s := by
  rw [strToFloat, if_neg h]

/-- No slash occurs in a printed decimal. -/
theorem no_slash_decimalRepr (q : ℚ) : '/' ∉ decimalRepr q := by
  intro hmem
  rw [decimalRepr] at hmem
  rcases decimalOfScaled_chars _ _ '/' hmem with hx | hx | hx
  · exact absurd hx (by decide)
  · exact absurd hx (by decide)
  · exact absurd hx (by decide)

/-- `float()` re-evaluates the printed form of a decimal-fraction float. -/
theorem pyParseFloat_decimalRepr (q : ℚ) (h : IsDecimalQ q) :
    pyParseFloat (decimalRepr q) = .ok q := by
  rw [decimalRepr]
  rw [pyParseFloat_decimalOfScaled]
  congr 1
  rw [IsDecimalQ] at h
  set a := countFac 2 q.den with ha
  set b := countFac 5 q.den with hb
  set k := max a b with hk
  have hden0 : ((q.den : ℚ)) ≠ 0 := by
    have := q.pos
    positivity
  have hqnum : (q.num : ℚ) = q * q.den :=
    ((div_eq_iff hden0).mp (Rat.num_div_den q)).symm.symm
  have hdenQ : (q.den : ℚ) = 2 ^ a * 5 ^ b := by
    have := congrArg (fun z : ℕ => (z : ℚ)) h
    push_cast at this
    exact this
  have h2k : (2 : ℚ) ^ (k - a) * 2 ^ a = 2 ^ k := by
    rw [← pow_add]
    congr 1
    omega
  have h5k : (5 : ℚ) ^ (k - b) * 5 ^ b = 5 ^ k := by
    rw [← pow_add]
    congr 1
    omega
  have h10k : ((10 : ℚ) ^ k) = 2 ^ k * 5 ^ k := by
    rw [← mul_pow]
    norm_num
  rw [div_eq_iff (by positivity : ((10 : ℚ) ^ k) ≠ 0)]
  push_cast
  rw [hqnum, hdenQ, h10k]
  have hfac : (2 : ℚ) ^ a * 5 ^ b * (2 ^ (k - a) * 5 ^ (k - b)) = 2 ^ k * 5 ^ k := by
    calc (2 : ℚ) ^ a * 5 ^ b * (2 ^ (k - a) * 5 ^ (k - b))
        = (2 ^ (k - a) * 2 ^ a) * (5 ^ (k - b) * 5 ^ b) := by ring
      _ = 2 ^ k * 5 ^ k := by rw [h2k, h5k]
  linear_combination q * hfac

/-- `strToFloat` re-evaluates the printed form of a decimal-fraction
float. -/
theorem strToFloat_decimalRepr (q : ℚ) (h : IsDecimalQ q) :
    strToFloat (decimalRepr q) = .ok q := by
  rw [strToFloat_no_slash _ (no_slash_decimalRepr q)]
  exact pyParseFloat_decimalRepr q h

/-- `strToFloat` re-evaluates the printed form of a beat value. -/
theorem strToFloat_beatRepr (bv : BeatV) (h : BeatOK bv) :
    strToFloat (beatRepr bv) = .ok bv.val := by
  cases bv with
  | flt q =>
    rw [beatRepr, BeatV.val]
    exact strToFloat_decimalRepr q h
  | frac q =>
    rw [BeatV.val]
    have hdvd : q.den ∣ 100 := h
    rw [beatRepr]
    by_cases h1 : q.den = 1
    · rw [if_pos h1]
      have hnos : '/' ∉ intChars q.num := by
        intro hmem
        rcases intChars_chars _ '/' hmem with hx | hx
        · exact absurd hx (by decide)
        · exact absurd hx (by decide)
      rw [strToFloat_no_slash _ hnos, pyParseFloat_intChars]
      congr 1
      have : ((q.num : ℚ)) / ((q.den : ℚ)) = q := Rat.num_div_den q
      rw [h1] at this
      simpa using this
    · rw [if_neg h1]
      have hslash : '/' ∈ intChars q.num ++ '/' :: natChars q.den := by
        rw [List.mem_append]
        right
        exact List.mem_cons_self _ _
      rw [strToFloat, if_pos hslash]
      have hnosn : '/' ∉ intChars q.num := by
        intro hmem
        rcases intChars_chars _ '/' hmem with hx | hx
        · exact absurd hx (by decide)
        · exact absurd hx (by decide)
      have hnosd : '/' ∉ natChars q.den := by
        intro hmem
        have := natChars_all_digits q.den '/' hmem
        exact absurd this (by decide)
      have hsplit : splitSub ['/'] (intChars q.num ++ '/' :: natChars q.den) =
          [intChars q.num, natChars q.den] := by
        have hshape : intChars q.num ++ '/' :: natChars q.den =
            intChars q.num ++ ('/' :: []) ++ natChars q.den := by
          simp
        rw [hshape, splitSub_sep_append '/' [] _ _ hnosn,
          splitSub_no_sep '/' [] _ hnosd]
      rw [hsplit]
      have hpd : pyParseInt (natChars q.den) = .ok ((q.den : ℕ) : ℤ) := by
        have hh := pyParseInt_intChars ((q.den : ℕ) : ℤ)
        rw [intChars, if_neg (by omega)] at hh
        rw [show (((q.den : ℕ) : ℤ)).natAbs = q.den from by omega] at hh
        exact hh
      simp only [pyParseInt_intChars, hpd]
      rw [if_neg (by
        have := q.pos
        intro hz
        omega)]
      have hval : ((q.num : ℚ)) / ((((q.den : ℕ) : ℤ) : ℤ) : ℚ) = q := by
        push_cast
        exact Rat.num_div_den q
      rw [hval]
      exact congrArg Except.ok (pyRound_den_dvd 2 q (by simpa using hdvd))

/-- The quoted items joined by `, ` are one quote, the items joined by the
four-character separator, and one closing quote. -/
theorem joinSep_map_wrap : ∀ (l : List PyStr), l ≠ [] →
    joinSep [',', ' '] (l.map pyStrReprOne) =
      aposCh :: (joinSep sep4 l ++ [aposCh]) := by
  intro l
  induction l with
  | nil => intro h; exact absurd rfl h
  | cons p rest ih =>
    intro _
    cases rest with
    | nil =>
      simp [joinSep, pyStrReprOne, sep4]
    | cons q rest2 =>
      rw [List.map_cons]
      rw [show joinSep [',', ' ']
          (pyStrReprOne p :: (q :: rest2).map pyStrReprOne) =
          pyStrReprOne p ++ [',', ' '] ++
            joinSep [',', ' '] ((q :: rest2).map pyStrReprOne) from by
        rw [List.map_cons]
        rfl]
      rw [ih (by simp)]
      rw [show joinSep sep4 (p :: q :: rest2) =
          p ++ sep4 ++ joinSep sep4 (q :: rest2) from rfl]
      simp [pyStrReprOne, sep4, List.append_assoc]

/-- Splitting inverts joining for nonempty piece lists free of the
separator's first character. -/
theorem splitSub_joinSep : ∀ (l : List PyStr), l ≠ [] →
    (∀ p ∈ l, aposCh ∉ p) → splitSub sep4 (joinSep sep4 l) = l := by
  intro l
  induction l with
  | nil => intro h _; exact absurd rfl h
  | cons p rest ih =>
    intro _ hcl
    cases rest with
    | nil =>
      rw [show joinSep sep4 [p] = p from rfl]
      exact splitSub_no_sep aposCh _ p (hcl p (List.mem_cons_self _ _))
    | cons q rest2 =>
      rw [show joinSep sep4 (p :: q :: rest2) =
          p ++ sep4 ++ joinSep sep4 (q :: rest2) from rfl]
      rw [show sep4 = aposCh :: (',' :: ' ' :: [aposCh]) from rfl]
      rw [splitSub_sep_append aposCh _ p _ (hcl p (List.mem_cons_self _ _))]
      rw [show (aposCh :: (',' :: ' ' :: [aposCh]) : PyStr) = sep4 from rfl]
      rw [ih (by simp) (fun x hx => hcl x (List.mem_cons_of_mem _ hx))]

/-- `parseSV`'s bracket decoding inverts the serialiser's list printing on a
nonempty list of quote-free strings. -/
theorem parsePitchesField_listStrRepr (l : List PyStr) (hne : l ≠ [])
    (hcl : ∀ p ∈ l, aposCh ∉ p) :
    parsePitchesField (listStrRepr l) = l := by
  rw [parsePitchesField, listStrRepr]
  rw [joinSep_map_wrap l hne]
  have hform : ('[' :: (aposCh :: (joinSep sep4 l ++ [aposCh])) ++ [']']) =
      '[' :: aposCh :: (joinSep sep4 l ++ [aposCh, ']']) := by simp
  rw [hform]
  rw [show (('[' :: aposCh :: (joinSep sep4 l ++ [aposCh, ']'])).drop 2) =
      joinSep sep4 l ++ [aposCh, ']'] from rfl]
  rw [show joinSep sep4 l ++ [aposCh, ']'] =
      (joinSep sep4 l ++ [aposCh]) ++ [']'] by simp]
  rw [List.dropLast_concat, List.dropLast_concat]
  exact splitSub_joinSep l hne hcl

/-- Characters of a joined list come from the separator or from a piece. -/
theorem mem_joinSep (sep : PyStr) :
    ∀ (l : List PyStr) (c : Char), c ∈ joinSep sep l →
      c ∈ sep ∨ ∃ p ∈ l, c ∈ p := by
  intro l
  induction l with
  | nil => intro c hc; cases hc
  | cons x rest ih =>
    intro c hc
    cases rest with
    | nil =>
      right
      exact ⟨x, List.mem_cons_self _ _, hc⟩
    | cons y r2 =>
      rw [show joinSep sep (x :: y :: r2) = x ++ sep ++ joinSep sep (y :: r2)
        from rfl] at hc
      rcases List.mem_append.mp hc with h | h
      · rcases List.mem_append.mp h with h2 | h2
        · exact Or.inr ⟨x, List.mem_cons_self _ _, h2⟩
        · exact Or.inl h2
      · rcases ih c h with h2 | ⟨p, hp, hcp⟩
        · exact Or.inl h2
        · exact Or.inr ⟨p, List.mem_cons_of_mem _ hp, hcp⟩

/-- CSV-safety of every character of the printed pitches/intervals cell of
a clean entry: none of tab, quote, CR, LF occurs. -/
theorem optListStrRepr_safe (o : Option (List PyStr)) (h : CleanStrs o) :
    ∀ c ∈ optListStrRepr o,
      c ≠ tabCh ∧ c ≠ quoteCh ∧ c ≠ crCh ∧ c ≠ nlCh := by
  intro c hc
  cases o with
  | none =>
    rw [optListStrRepr] at hc
    exact absurd hc (List.not_mem_nil c)
  | some l =>
    rw [optListStrRepr, listStrRepr] at hc
    rcases List.mem_cons.mp hc with h1 | h1
    · subst h1; refine ⟨by decide, by decide, by decide, by decide⟩
    · rcases List.mem_append.mp h1 with h2 | h2
      · rcases mem_joinSep _ _ c h2 with h3 | ⟨p, hp, hcp⟩
        · rcases List.mem_cons.mp h3 with h4 | h4
          · subst h4; refine ⟨by decide, by decide, by decide, by decide⟩
          · rw [List.mem_singleton.mp h4]
            refine ⟨by decide, by decide, by decide, by decide⟩
        · rcases List.mem_map.mp hp with ⟨p0, hp0, hw⟩
          rw [← hw, pyStrReprOne] at hcp
          rcases List.mem_cons.mp hcp with h4 | h4
          · subst h4; refine ⟨by decide, by decide, by decide, by decide⟩
          · rcases List.mem_append.mp h4 with h5 | h5
            · have := h p0 hp0 c h5
              exact ⟨this.1, this.2.1, this.2.2.1, this.2.2.2.1⟩
            · rw [List.mem_singleton.mp h5]
              refine ⟨by decide, by decide, by decide, by decide⟩
      · rw [List.mem_singleton.mp h2]
        refine ⟨by decide, by decide, by decide, by decide⟩

/-- CSV-safety of every character of a printed integer-list cell. -/
theorem optIntsRepr_safe (o : Option (List ℤ)) :
    ∀ c ∈ optIntsRepr o,
      c ≠ tabCh ∧ c ≠ quoteCh ∧ c ≠ crCh ∧ c ≠ nlCh := by
  intro c hc
  cases o with
  | none =>
    rw [optIntsRepr] at hc
    exact absurd hc (List.not_mem_nil c)
  | some l =>
    rw [optIntsRepr, listIntRepr] at hc
    rcases List.mem_cons.mp hc with h1 | h1
    · subst h1; refine ⟨by decide, by decide, by decide, by decide⟩
    · rcases List.mem_append.mp h1 with h2 | h2
      · rcases mem_joinSep _ _ c h2 with h3 | ⟨p, hp, hcp⟩
        · rcases List.mem_cons.mp h3 with h4 | h4
          · subst h4; refine ⟨by decide, by decide, by decide, by decide⟩
          · rw [List.mem_singleton.mp h4]
            refine ⟨by decide, by decide, by decide, by decide⟩
        · rcases List.mem_map.mp hp with ⟨i, _, hw⟩
          rw [← hw] at hcp
          rcases intChars_chars i c hcp with h4 | h4
          · have := numeric_char_safe c (Or.inl h4)
            exact ⟨this.1, this.2.1, this.2.2.1, this.2.2.2.1⟩
          · subst h4; refine ⟨by decide, by decide, by decide, by decide⟩
      · rw [List.mem_singleton.mp h2]
        refine ⟨by decide, by decide, by decide, by decide⟩

/-- CSV-safety of every character of every cell of a clean entry. -/
theorem entryFields_safe (e : ScoreEntry) (h : CleanEntry e) :
    ∀ f ∈ entryFields e, ∀ c ∈ f,
      c ≠ tabCh ∧ c ≠ quoteCh ∧ c ≠ crCh ∧ c ≠ nlCh := by
  intro f hf c hc
  rw [entryFields] at hf
  have hnum : (c.isDigit = true ∨ c = '-' ∨ c = '.' ∨ c = '/') →
      c ≠ tabCh ∧ c ≠ quoteCh ∧ c ≠ crCh ∧ c ≠ nlCh := by
    intro hx
    have := numeric_char_safe c hx
    exact ⟨this.1, this.2.1, this.2.2.1, this.2.2.2.1⟩
  fin_cases hf
  · rcases intChars_chars _ c hc with h1 | h1
    · exact hnum (Or.inl h1)
    · exact hnum (Or.inr (Or.inl h1))
  · rcases beatRepr_chars _ c hc with h1 | h1 | h1 | h1
    · exact hnum (Or.inl h1)
    · exact hnum (Or.inr (Or.inl h1))
    · exact hnum (Or.inr (Or.inr (Or.inl h1)))
    · exact hnum (Or.inr (Or.inr (Or.inr h1)))
  · rw [decimalRepr] at hc
    rcases decimalOfScaled_chars _ _ c hc with h1 | h1 | h1
    · exact hnum (Or.inl h1)
    · exact hnum (Or.inr (Or.inl h1))
    · exact hnum (Or.inr (Or.inr (Or.inl h1)))
  · rw [decimalRepr] at hc
    rcases decimalOfScaled_chars _ _ c hc with h1 | h1 | h1
    · exact hnum (Or.inl h1)
    · exact hnum (Or.inr (Or.inl h1))
    · exact hnum (Or.inr (Or.inr (Or.inl h1)))
  · exact optListStrRepr_safe _ h.2.2.2.1 c hc
  · exact optListStrRepr_safe _ h.2.2.2.2 c hc
  · exact optIntsRepr_safe _ c hc
  · exact optIntsRepr_safe _ c hc

/-- Quoting does nothing to a CSV-safe cell. -/
theorem quoteField_id (s : PyStr)
    (h : ∀ c ∈ s, c ≠ tabCh ∧ c ≠ quoteCh ∧ c ≠ crCh ∧ c ≠ nlCh) :
    quoteField s = s := by
  rw [quoteField, if_neg]
  intro hq
  rw [needsQuote, List.any_eq_true] at hq
  rcases hq with ⟨c, hc, hcq⟩
  simp only [Bool.or_eq_true, beq_iff_eq] at hcq
  rcases hcq with ((h1 | h1) | h1) | h1
  · exact (h c hc).1 h1
  · exact (h c hc).2.1 h1
  · exact (h c hc).2.2.1 h1
  · exact (h c hc).2.2.2 h1

/-- Splitting on tab inverts joining tab-free cells, with a tab-free tail
attached to the last cell. -/
theorem splitSub_tab_join : ∀ (fs : List PyStr) (g z : PyStr),
    (∀ f ∈ fs, tabCh ∉ f) → tabCh ∉ g → tabCh ∉ z →
    splitSub [tabCh] (joinSep [tabCh] (fs ++ [g]) ++ z) = fs ++ [g ++ z] := by
  intro fs
  induction fs with
  | nil =>
    intro g z _ hg hz
    rw [show joinSep [tabCh] ([] ++ [g]) = g from rfl]
    rw [splitSub_no_sep tabCh [] _ (by
      intro hm
      rcases List.mem_append.mp hm with h | h
      · exact hg h
      · exact hz h)]
    rfl
  | cons f fs' ih =>
    intro g z hf hg hz
    have hne : fs' ++ [g] ≠ [] := by simp
    have hshape : joinSep [tabCh] ((f :: fs') ++ [g]) =
        f ++ [tabCh] ++ joinSep [tabCh] (fs' ++ [g]) := by
      cases hfse : fs' ++ [g] with
      | nil => exact absurd hfse hne
      | cons a b =>
        rw [show (f :: fs') ++ [g] = f :: (fs' ++ [g]) from rfl, hfse]
        rfl
    have hshape2 : joinSep [tabCh] ((f :: fs') ++ [g]) ++ z =
        f ++ (tabCh :: []) ++ (joinSep [tabCh] (fs' ++ [g]) ++ z) := by
      rw [hshape]
      simp [List.append_assoc]
    rw [hshape2]
    rw [splitSub_sep_append tabCh [] f _ (hf f (List.mem_cons_self _ _))]
    rw [ih g z (fun x hx => hf x (List.mem_cons_of_mem _ hx)) hg hz]
    rfl

/-- Reading the first cell. -/
theorem getF_cons_zero (v : PyStr) (vs : List PyStr) : getF (v :: vs) 0 = .ok v := rfl

/-- Reading a later cell. -/
theorem getF_cons_succ (v : PyStr) (vs : List PyStr) (i : ℕ) :
    getF (v :: vs) (i + 1) = getF vs i := rfl

/-- Monadic bind on a successful step. -/
theorem except_bind_ok {α β : Type} (a : α) (f : α → Except PyError β) :
    (Except.ok a >>= f) = f a := rfl

/-- Monadic return for the exception monad. -/
theorem except_pure {α : Type} (a : α) :
    (pure a : Except PyError α) = Except.ok a := rfl

/-- The tab-split of a serialised clean entry: the eight printed cells, the
newline still attached to the last. -/
theorem splitSub_serializeEntry (e : ScoreEntry) (h : CleanEntry e) :
    splitSub [tabCh] (serializeEntry e) =
      [intChars e.measure, beatRepr e.beat, decimalRepr e.beatStrength,
       decimalRepr e.length, optListStrRepr e.pitches, optListStrRepr e.intervals,
       optIntsRepr e.primeForm, optIntsRepr e.normalOrder ++ [nlCh]] := by
  have hsafe := entryFields_safe e h
  have hmem : ∀ f ∈ entryFields e, ∀ c ∈ f, c ≠ tabCh := by
    intro f hf c hc
    exact (hsafe f hf c hc).1
  have hid : (entryFields e).map quoteField = entryFields e := by
    rw [entryFields]
    simp only [List.map_cons, List.map_nil]
    rw [quoteField_id _ (hsafe _ (by rw [entryFields]; simp)),
      quoteField_id _ (hsafe _ (by rw [entryFields]; simp)),
      quoteField_id _ (hsafe _ (by rw [entryFields]; simp)),
      quoteField_id _ (hsafe _ (by rw [entryFields]; simp)),
      quoteField_id _ (hsafe _ (by rw [entryFields]; simp)),
      quoteField_id _ (hsafe _ (by rw [entryFields]; simp)),
      quoteField_id _ (hsafe _ (by rw [entryFields]; simp)),
      quoteField_id _ (hsafe _ (by rw [entryFields]; simp))]
  rw [serializeEntry, hid]
  have hfields : entryFields e =
      [intChars e.measure, beatRepr e.beat, decimalRepr e.beatStrength,
       decimalRepr e.length, optListStrRepr e.pitches, optListStrRepr e.intervals,
       optIntsRepr e.primeForm] ++ [optIntsRepr e.normalOrder] := by
    rw [entryFields]
    rfl
  rw [hfields]
  rw [splitSub_tab_join
    [intChars e.measure, beatRepr e.beat, decimalRepr e.beatStrength,
     decimalRepr e.length, optListStrRepr e.pitches, optListStrRepr e.intervals,
     optIntsRepr e.primeForm]
    (optIntsRepr e.normalOrder) [nlCh]
    (by
      intro f hf hc
      refine hmem f ?_ tabCh hc rfl
      rw [hfields]
      exact List.mem_append_left _ hf)
    (by
      intro hc
      refine hmem (optIntsRepr e.normalOrder) ?_ tabCh hc rfl
      rw [hfields]
      exact List.mem_append_right _ (List.mem_singleton.mpr rfl))
    (by decide)]
  rfl

/-- The bracket decoding inverts the pitches/intervals printing of a clean
field, landing on `encField`: absent and empty fields come back as `['']`,
nonempty lists as themselves. -/
theorem parsePitchesField_optListStrRepr (o : Option (List PyStr))
    (h : CleanStrs o) :
    parsePitchesField (optListStrRepr o) = encField o := by
  cases o with
  | none => decide
  | some l =>
    cases l with
    | nil => decide
    | cons p ps =>
      rw [optListStrRepr, show encField (some (p :: ps)) = p :: ps from rfl]
      refine parsePitchesField_listStrRepr (p :: ps) (by simp) ?_
      intro x hx hmem
      exact (h x hx aposCh hmem).2.2.2.2 rfl

/-- `parseSV` reconstructs exactly `roundTripImage e` from the serialised
form of a clean entry. -/
theorem parseLine_serializeEntry (e : ScoreEntry) (h : CleanEntry e) :
    parseLine (serializeEntry e) = .ok (roundTripImage e) := by
  rw [parseLine]
  rw [splitSub_serializeEntry e h]
  simp only [getF_cons_zero, getF_cons_succ, except_bind_ok,
    pyParseInt_intChars, strToFloat_beatRepr e.beat h.1,
    pyParseFloat_decimalRepr e.beatStrength h.2.1,
    strToFloat_decimalRepr e.length h.2.2.1, except_pure]
  rw [roundTripImage]
  rw [parsePitchesField_optListStrRepr e.pitches h.2.2.2.1,
    parsePitchesField_optListStrRepr e.intervals h.2.2.2.2]
  rw [List.dropLast_concat]

/-- The line iterator takes one newline-terminated block off the front. -/
theorem linesOfGo_block : ∀ (p t acc : PyStr), nlCh ∉ p →
    linesOfGo acc (p ++ nlCh :: t) =
      ((acc.reverse ++ p) ++ [nlCh]) :: linesOfGo [] t := by
  intro p
  induction p with
  | nil =>
    intro t acc _
    rw [List.nil_append]
    rw [linesOfGo]
    rw [if_pos rfl]
    simp
  | cons a p' ih =>
    intro t acc hnp
    have ha : ¬(a = nlCh) := fun he => hnp (he ▸ List.mem_cons_self a p')
    rw [List.cons_append, linesOfGo]
    rw [if_neg ha]
    rw [ih t (a :: acc) (fun hm => hnp (List.mem_cons_of_mem _ hm))]
    simp [List.append_assoc]

/-- The line iterator on a file beginning with one full line. -/
theorem linesOf_block (p t : PyStr) (h : nlCh ∉ p) :
    linesOf ((p ++ [nlCh]) ++ t) = (p ++ [nlCh]) :: linesOf t := by
  rw [linesOf, show (p ++ [nlCh]) ++ t = p ++ nlCh :: t by simp]
  rw [linesOfGo_block p t [] h]
  rw [linesOf]
  simp

/-- Reading back the file `makeSV` writes yields exactly the serialised
rows of the clean entries. -/
theorem linesOf_makeSV (entries : List ScoreEntry)
    (h : ∀ e ∈ entries, CleanEntry e) :
    linesOf (makeSV entries) = entries.map serializeEntry := by
  induction entries with
  | nil => rfl
  | cons e es ih =>
    rw [makeSV, List.map_cons, List.flatten_cons]
    have hbody : nlCh ∉ joinSep [tabCh] ((entryFields e).map quoteField) := by
      intro hmem
      rcases mem_joinSep _ _ _ hmem with h1 | ⟨p, hp, hcp⟩
      · have h2 : nlCh = tabCh := List.mem_singleton.mp h1
        exact absurd h2 (by decide)
      · rcases List.mem_map.mp hp with ⟨f, hf, hqf⟩
        rw [← hqf, quoteField_id f
          (entryFields_safe e (h e (List.mem_cons_self e es)) f hf)] at hcp
        exact (entryFields_safe e (h e (List.mem_cons_self e es)) f hf nlCh
          hcp).2.2.2 rfl
    rw [show serializeEntry e ++ (es.map serializeEntry).flatten =
        (joinSep [tabCh] ((entryFields e).map quoteField) ++ [nlCh]) ++
          (es.map serializeEntry).flatten from rfl]
    rw [linesOf_block _ _ hbody]
    rw [show (joinSep [tabCh] ((entryFields e).map quoteField) ++ [nlCh]) =
      serializeEntry e from rfl]
    rw [show (es.map serializeEntry).flatten = makeSV es from rfl]
    rw [ih (fun x hx => h x (List.mem_cons_of_mem _ hx))]

/-- C1 (amended): parsing the file `makeSV` writes for a slice sequence of
clean entries reproduces every entry as `roundTripImage` describes: the
scalar fields exactly (hence `beat` and `beatStrength` to well within two
decimal places), nonempty pitch and interval lists exactly and in order,
and the `primeForm`/`normalOrder` labels as their printed string form;
absent fields (rests) and empty interval lists (single-pitch chords) come
back as the one-element list `['']`, and absent labels (written as empty
cells) come back as the empty string. -/
theorem roundTrip_amended (entries : List ScoreEntry)
    (h : ∀ e ∈ entries, CleanEntry e) :
    parseSV (makeSV entries) = .ok (entries.map roundTripImage) := by
  have key : ∀ (l : List ScoreEntry), (∀ e ∈ l, CleanEntry e) →
      exceptMapM parseLine (l.map serializeEntry) = .ok (l.map roundTripImage) := by
    intro l
    induction l with
    | nil => intro _; rfl
    | cons e es ih =>
      intro hl
      rw [List.map_cons, List.map_cons]
      rw [exceptMapM]
      rw [parseLine_serializeEntry e (hl e (List.mem_cons_self _ _))]
      rw [ih (fun x hx => hl x (List.mem_cons_of_mem _ hx))]
  rw [parseSV, linesOf_makeSV entries h, key entries h]

/-- Closed instantiation of `roundTrip_amended` on a chord entry and a rest
entry (the rest exercising the `Fraction` beat and the `None` fields). -/
theorem roundTrip_amended_witness :
    (∀ e ∈ [chordE, restE], CleanEntry e) ∧
    parseSV (makeSV [chordE, restE]) = .ok ([chordE, restE].map roundTripImage) :=
  ⟨by decide, roundTrip_amended [chordE, restE] (by decide)⟩

/-- C1 (counterexample to the claim as stated): a chord entry holding a
single pitch has the empty interval list, which the serialise-then-parse
cycle returns as `['']`, not as the original empty list — so the interval
set of this entry is not reproduced exactly. -/
theorem roundTrip_counterexample :
    singlePitchE.intervals = some [] ∧
    parseSV (makeSV [singlePitchE]) = .ok [roundTripImage singlePitchE] ∧
    (roundTripImage singlePitchE).intervals = [([] : PyStr)] ∧
    (roundTripImage singlePitchE).intervals ≠ ([] : List PyStr) := by
  refine ⟨rfl, ?_, by decide, by decide⟩
  decide

/-- Monadic bind on a failed step. -/
theorem except_bind_error {α β : Type} (e : PyError) (f : α → Except PyError β) :
    ((Except.error e : Except PyError α) >>= f) = .error e := rfl

/-- A successful cell read means the index is in range and `getD` agrees. -/
theorem getF_ok_facts (vs : List PyStr) (i : ℕ) (v : PyStr)
    (h : getF vs i = .ok v) : i < vs.length ∧ vs.getD i [] = v := by
  rw [getF] at h
  cases hq : vs.get? i with
  | none => rw [hq] at h; cases h
  | some w =>
    rw [hq] at h
    cases h
    refine ⟨?_, ?_⟩
    · exact (List.get?_eq_some.mp hq).1
    · rw [List.getD_eq_get?, hq]
      rfl

/-- A line the parser accepts is not malformed: it has at least eight cells
and its four numeric cells convert. -/
theorem parseLine_ok_not_malformed (line : PyStr) (t : TableEntry)
    (h : parseLine line = .ok t) : ¬ MalformedLine line := by
  rw [parseLine] at h
  cases h0 : getF (splitSub [tabCh] line) 0 with
  | error e => rw [h0] at h; cases h
  | ok v0 =>
  rw [h0] at h
  simp only [except_bind_ok] at h
  cases h1 : pyParseInt v0 with
  | error e => rw [h1] at h; cases h
  | ok m =>
  rw [h1] at h
  simp only [except_bind_ok] at h
  cases h2 : getF (splitSub [tabCh] line) 1 with
  | error e => rw [h2] at h; cases h
  | ok v1 =>
  rw [h2] at h
  simp only [except_bind_ok] at h
  cases h3 : strToFloat v1 with
  | error e => rw [h3] at h; cases h
  | ok b =>
  rw [h3] at h
  simp only [except_bind_ok] at h
  cases h4 : getF (splitSub [tabCh] line) 2 with
  | error e => rw [h4] at h; cases h
  | ok v2 =>
  rw [h4] at h
  simp only [except_bind_ok] at h
  cases h5 : pyParseFloat v2 with
  | error e => rw [h5] at h; cases h
  | ok bs =>
  rw [h5] at h
  simp only [except_bind_ok] at h
  cases h6 : getF (splitSub [tabCh] line) 3 with
  | error e => rw [h6] at h; cases h
  | ok v3 =>
  rw [h6] at h
  simp only [except_bind_ok] at h
  cases h7 : strToFloat v3 with
  | error e => rw [h7] at h; cases h
  | ok len =>
  rw [h7] at h
  simp only [except_bind_ok] at h
  cases h8 : getF (splitSub [tabCh] line) 7 with
  | error e =>
    exfalso
    cases h9 : getF (splitSub [tabCh] line) 4 with
    | error e4 => rw [h9] at h; cases h
    | ok v4 =>
      rw [h9] at h
      simp only [except_bind_ok] at h
      cases h10 : getF (splitSub [tabCh] line) 5 with
      | error e5 => rw [h10] at h; cases h
      | ok v5 =>
        rw [h10] at h
        simp only [except_bind_ok] at h
        cases h11 : getF (splitSub [tabCh] line) 6 with
        | error e6 => rw [h11] at h; cases h
        | ok v6 =>
          rw [h11] at h
          simp only [except_bind_ok] at h
          rw [h8] at h
          cases h
  | ok v7 =>
    intro hmal
    rw [MalformedLine] at hmal
    have hlen := (getF_ok_facts _ _ _ h8).1
    rcases hmal with hx | hx | hx | hx | hx
    · omega
    · rw [(getF_ok_facts _ _ _ h0).2, h1] at hx
      cases hx
    · rw [(getF_ok_facts _ _ _ h2).2, h3] at hx
      cases hx
    · rw [(getF_ok_facts _ _ _ h4).2, h5] at hx
      cases hx
    · rw [(getF_ok_facts _ _ _ h6).2, h7] at hx
      cases hx

/-- A malformed line makes `parseSV`'s per-line step raise. -/
theorem malformed_parseLine_isErr (line : PyStr) (h : MalformedLine line) :
    isErr (parseLine line) = true := by
  cases hp : parseLine line with
  | error e => rfl
  | ok t => exact absurd h (parseLine_ok_not_malformed line t hp)

/-- A failing element makes the effectful map fail with some error. -/
theorem exceptMapM_isErr {α β : Type} (g : α → Except PyError β) :
    ∀ xs : List α, (∃ x ∈ xs, isErr (g x) = true) →
      ∃ er, exceptMapM g xs = .error er := by
  intro xs
  induction xs with
  | nil => rintro ⟨x, hx, _⟩; cases hx
  | cons x xs ih =>
    rintro ⟨y, hy, hyerr⟩
    cases hgx : g x with
    | error e =>
      refine ⟨e, ?_⟩
      simp [exceptMapM, hgx]
    | ok v =>
      have hy' : y ∈ xs := by
        rcases List.mem_cons.mp hy with h | h
        · subst h
          rw [hgx] at hyerr
          simp [isErr] at hyerr
        · exact h
      rcases ih ⟨y, hy', hyerr⟩ with ⟨er, her⟩
      refine ⟨er, ?_⟩
      simp [exceptMapM, hgx, her]

/-- C6 (amended): a malformed line — too few tab-separated cells, or an
unconvertible numeric cell — makes `parseSV` raise and abandon the whole
read: no malformed row is silently dropped or partially accepted. -/
theorem parseSV_malformed_aborts (file : PyStr)
    (h : ∃ l ∈ linesOf file, MalformedLine l) :
    ∃ er, parseSV file = .error er := by
  rw [parseSV]
  apply exceptMapM_isErr
  rcases h with ⟨l, hl, hml⟩
  exact ⟨l, hl, malformed_parseLine_isErr l hml⟩

/-- Closed instantiation of `parseSV_malformed_aborts` on the one-line file
whose first cell is not an integer. -/
theorem parseSV_malformed_aborts_witness :
    (∃ l ∈ linesOf badFile, MalformedLine l) ∧
    ∃ er, parseSV badFile = .error er :=
  ⟨by decide, parseSV_malformed_aborts badFile (by decide)⟩

/-- C6 (counterexample to the claim as stated): the same malformed line
produces the identical error value whether it is the first or the second
line of the file, so the error does not identify the line number; and a
nine-cell line — a wrong field count — is accepted rather than rejected,
with the extra cell ignored and the eighth cell corrupted. -/
theorem parseSV_error_line_number_counterexample :
    parseSV badFile = .error (.valueError (("x").data ++ [nlCh])) ∧
    parseSV goodThenBadFile = .error (.valueError (("x").data ++ [nlCh])) ∧
    parseSV badFile = parseSV goodThenBadFile ∧
    parseLine nineCellLine = .ok nineCellParsed := by
  refine ⟨by decide, ?_, ?_, by decide⟩
  · decide
  · decide
